import Mathlib

/-!
# libmv tracker UI: patch extraction and frame-to-frame marker tracking

A shallow embedding of `src/ui/tracker/tracker.cc` (functions
`CopyRegionFromQImage` and `Tracker::Track`) together with models of the
collaborators that the file only calls (`Tracks::Insert`,
`Tracks::MarkersInImage`, the region trackers, the KLT feature detector).

Conventions.
* C++ `int` values are mathematical integers (`Int`).  Signed overflow is
  undefined behaviour in C++, so the embedding describes the executions in
  which no `int` expression overflows.
* C++ `double` values are rationals (`ℚ`): "exact arithmetic".
* A read of `data[i]` outside the sample buffer is undefined behaviour in
  C++; the embedding makes it an explicit outcome (`Option` / `badRead`).
-/

namespace Libmv

/-! ## Images -/

/-- An 8-bit `QImage`: `width()`, `height()` and the samples behind
`constBits()`, in the order in which the buffer stores them. -/
structure QImage where
  width : Int
  height : Int
  data : List Nat
deriving DecidableEq, Repr

/-- A `libmv::FloatImage` of depth 1: `resize(h, w)` sets the two
dimensions, `Data()` is the row-major sample buffer. -/
structure FloatImage where
  Height : Int
  Width : Int
  Data : List ℚ
deriving DecidableEq, Repr

/-- The read `data[i]` of an `int` index in the sample buffer; `none` when
the index lies outside the buffer. -/
def readSample (data : List Nat) (i : Int) : Option Nat :=
  if 0 ≤ i then data[i.toNat]? else none

/-- Sample of the image at row `y`, column `x`: `data[y * width + x]`. -/
def QImage.pixel (image : QImage) (y x : Int) : Option Nat :=
  readSample image.data (y * image.width + x)

/-- Element `region(r, c)` of a depth-1 `FloatImage`: offset
`r * Width + c` in the row-major buffer. -/
def FloatImage.elem (region : FloatImage) (r c : Int) : Option ℚ :=
  if 0 ≤ r * region.Width + c then region.Data[(r * region.Width + c).toNat]? else none

/-! ## CopyRegionFromQImage -/

/-- The condition of the early return at line 55 of `tracker.cc`:
`x0 < 0 || y0 < 0 || x0+w >= width || y0+h >= height`. -/
def regionLeavesImage (image : QImage) (w h x0 y0 : Int) : Bool :=
  decide (x0 < 0) || decide (y0 < 0) || decide (x0 + w ≥ image.width)
    || decide (y0 + h ≥ image.height)

/-- The inner loop `for (int x = x0; x < x0 + w; ++x) *dst++ = data[y * width + x];`.
The first argument is the number of iterations still to run (`x0 + w - x`),
`x` is the loop variable and `dst` the samples written so far. -/
def copyRow (data : List Nat) (width y : Int) : Nat → Int → List ℚ → Option (List ℚ)
  | 0, _, dst => some dst
  | n + 1, x, dst =>
    match readSample data (y * width + x) with
    | none => none
    | some v => copyRow data width y n (x + 1) (dst ++ [(v : ℚ)])

/-- The outer loop `for (int y = y0; y < y0 + h; ++y) { ... }`.  The first
argument is the number of iterations still to run (`y0 + h - y`). -/
def copyRows (data : List Nat) (width x0 w : Int) : Nat → Int → List ℚ → Option (List ℚ)
  | 0, _, dst => some dst
  | n + 1, y, dst =>
    match copyRow data width y w.toNat x0 dst with
    | none => none
    | some dst1 => copyRows data width x0 w n (y + 1) dst1

/-- What a call of `CopyRegionFromQImage` does. -/
inductive CopyOutcome where
  /-- The call returned `false`; `*region` was not touched. -/
  | rejected : CopyOutcome
  /-- The call returned `true`; the argument is `*region` afterwards. -/
  | copied (region : FloatImage) : CopyOutcome
  /-- The copy loop read outside the sample buffer. -/
  | badRead : CopyOutcome
deriving DecidableEq, Repr

/-- `bool CopyRegionFromQImage(QImage image, int w, int h, int x0, int y0,
FloatImage *region)` of `tracker.cc`, lines 45-66. -/
def CopyRegionFromQImage (image : QImage) (w h x0 y0 : Int) : CopyOutcome :=
  if regionLeavesImage image w h x0 y0 then CopyOutcome.rejected
  else
    match copyRows image.data image.width x0 w h.toNat y0 [] with
    | none => CopyOutcome.badRead
    | some dst => CopyOutcome.copied { Height := h, Width := w, Data := dst }

/-- The Boolean returned by the call, when it returns. -/
def CopyOutcome.returned : CopyOutcome → Option Bool
  | CopyOutcome.rejected => some false
  | CopyOutcome.copied _ => some true
  | CopyOutcome.badRead => none

/-! ## Markers and the marker collection -/

/-- A `libmv::Marker`: `int image; int track; double x, y;`. -/
structure Marker where
  image : Int
  track : Int
  x : ℚ
  y : ℚ
deriving DecidableEq, Repr

/-- Modelled from the spec: `Tracks::Insert(image, track, x, y)`, a member of
the base class of `Tracker` whose body is not among the sources.  The spec
describes the collection as records "each binding an (image index, track
identifier) pair to a 2-D position": the record bound to the pair gets the
new position, and a new record is appended when the pair has none. -/
def Insert (image track : Int) (x y : ℚ) : List Marker → List Marker
  | [] => [{ image := image, track := track, x := x, y := y }]
  | m :: ms =>
    if m.image = image ∧ m.track = track then { m with x := x, y := y } :: ms
    else m :: Insert image track x y ms

/-- Modelled from the spec: `Tracks::MarkersInImage(image)`, whose body is not
among the sources: the records of the collection bound to the image index, in
the order of the collection. -/
def MarkersInImage (markers_ : List Marker) (image : Int) : List Marker :=
  markers_.filter (fun m => decide (m.image = image))

/-- Modelled from the spec: `Tracks::MarkerInImageForTrack(image, track)`,
whose body is not among the sources: the record bound to the pair
(image index, track identifier), if the collection has one. -/
def MarkerInImageForTrack (markers_ : List Marker) (image track : Int) : Option Marker :=
  markers_.find? (fun m => decide (m.image = image ∧ m.track = track))

/-! ## The region tracker seen from `Tracker::Track` -/

/-- The arguments of one call
`region_tracker.Track(old_patch, new_patch, xx0, yy0, &xx1, &yy1)`:
the two patches, the start position and the contents of the two output
variables on entry. -/
structure TrackerCall where
  old_patch : FloatImage
  new_patch : FloatImage
  x1 : ℚ
  y1 : ℚ
  x2 : ℚ
  y2 : ℚ
deriving DecidableEq, Repr

/-- The effect of one call of a region tracker: the Boolean it returns and
the contents of the two output variables on return. -/
structure TrackResult where
  succeeded : Bool
  x2 : ℚ
  y2 : ℚ
deriving DecidableEq, Repr

/-- A stateless region tracker: its result is a function of its arguments.
The tracker classes are not among the sources, so `Tracker::Track` takes the
tracker it builds as a parameter. -/
abbrev RegionTracker := TrackerCall → TrackResult

/-! ## Tracker::Track -/

/-- The conversion of a `double` to `int` (`int x0 = marker.x - half_size;`):
the fractional part is discarded, rounding toward zero. -/
def truncToInt (q : ℚ) : Int := if 0 ≤ q then ⌊q⌋ else ⌈q⌉

/-- The state that the loop of `Tracker::Track` changes: the marker
collection, and a ghost log of the calls made to the region tracker. -/
structure TrackState where
  markers_ : List Marker
  calls : List TrackerCall
deriving DecidableEq, Repr

/-- The body of the loop of `Tracker::Track` (lines 120-150) for one marker
of the previous image.  `H` is `kHalfSearchWindowSize`, a constant of
`tracker.h`.  The result is `none` when a patch copy reads outside the
sample buffer of its image. -/
def trackMarker (H : Int) (region_tracker : RegionTracker) (selected_tracks_ : List Int)
    (next : Int) (old_image new_image : QImage) (st : TrackState) (marker : Marker) :
    Option TrackState :=
  if !selected_tracks_.contains marker.track then some st
  else
    let half_size : Int := H
    let size : Int := H * 2 + 1
    let x0 : Int := truncToInt (marker.x - (half_size : ℚ))
    let y0 : Int := truncToInt (marker.y - (half_size : ℚ))
    match CopyRegionFromQImage old_image size size x0 y0 with
    | CopyOutcome.badRead => none
    | CopyOutcome.rejected => some st
    | CopyOutcome.copied old_patch =>
      let x1 : Int := truncToInt (marker.x - (half_size : ℚ))
      let y1 : Int := truncToInt (marker.y - (half_size : ℚ))
      match CopyRegionFromQImage new_image size size x1 y1 with
      | CopyOutcome.badRead => none
      | CopyOutcome.rejected => some st
      | CopyOutcome.copied new_patch =>
        let xx0 : ℚ := marker.x - (x0 : ℚ)
        let yy0 : ℚ := marker.y - (y0 : ℚ)
        let xx1 : ℚ := marker.x - (x1 : ℚ)
        let yy1 : ℚ := marker.y - (y1 : ℚ)
        let call : TrackerCall :=
          { old_patch := old_patch, new_patch := new_patch,
            x1 := xx0, y1 := yy0, x2 := xx1, y2 := yy1 }
        let r := region_tracker call
        some { markers_ := Insert next marker.track ((x1 : ℚ) + r.x2) ((y1 : ℚ) + r.y2)
                 st.markers_,
               calls := st.calls ++ [call] }

/-- The loop `for (int i = 0; i < previous_markers.size(); i++)` over the
markers of the previous image. -/
def trackLoop (H : Int) (region_tracker : RegionTracker) (selected_tracks_ : List Int)
    (next : Int) (old_image new_image : QImage) :
    List Marker → TrackState → Option TrackState
  | [], st => some st
  | marker :: rest, st =>
    match trackMarker H region_tracker selected_tracks_ next old_image new_image st marker with
    | none => none
    | some st1 =>
      trackLoop H region_tracker selected_tracks_ next old_image new_image rest st1

/-- `void Tracker::Track(int previous, int next, QImage old_image, QImage new_image)`
on a tracker with marker collection `markers_` and selection
`selected_tracks_`. -/
def Track (H : Int) (region_tracker : RegionTracker) (markers_ : List Marker)
    (selected_tracks_ : List Int) (previous next : Int) (old_image new_image : QImage) :
    Option TrackState :=
  let previous_markers := MarkersInImage markers_ previous
  trackLoop H region_tracker selected_tracks_ next old_image new_image previous_markers
    { markers_ := markers_, calls := [] }

/-- The change one loop iteration makes to the state: nothing, or one
insertion for `(next, track)` and one logged call of the region tracker. -/
def applyEffect (next track : Int) : Option (ℚ × ℚ × TrackerCall) → TrackState → TrackState
  | none, st => st
  | some (x, y, call), st =>
    { markers_ := Insert next track x y st.markers_, calls := st.calls ++ [call] }

/-- The keys at which `Tracker::Track(previous, next, ...)` may write: the
marker is bound to `(next, t)` for a selected track `t` that has a marker in
image `previous`. -/
def mayWrite (markers_ : List Marker) (selected_tracks_ : List Int) (previous next : Int)
    (m : Marker) : Bool :=
  decide (m.image = next) && selected_tracks_.contains m.track &&
    (MarkersInImage markers_ previous).any (fun p => decide (p.track = m.track))

/-- A 6 x 6 frame whose sample at row `y`, column `x` is `6 * y + x`. -/
def frame6 : QImage :=
  { width := 6, height := 6,
    data := [0, 1, 2, 3, 4, 5, 6, 7, 8, 9, 10, 11, 12, 13, 14, 15, 16, 17,
             18, 19, 20, 21, 22, 23, 24, 25, 26, 27, 28, 29, 30, 31, 32, 33, 34, 35] }

/-- The 3 x 3 patch of `frame6` with top-left corner (1, 1). -/
def patch6 : FloatImage :=
  { Height := 3, Width := 3, Data := [7, 8, 9, 13, 14, 15, 19, 20, 21] }

/-- A region tracker that reports failure and leaves the output variables as
they are on entry. -/
def idleTracker : RegionTracker :=
  fun call => { succeeded := false, x2 := call.x2, y2 := call.y2 }

/-- A region tracker that reports success and moves the start position by
`(1/2, -1/4)`. -/
def shiftTracker : RegionTracker :=
  fun call => { succeeded := true, x2 := call.x1 + 1 / 2, y2 := call.y1 - 1 / 4 }

/-- The arguments with which the loop body of `Tracker::Track` calls the
region tracker for `marker` (lines 131-149), once the patches `old_patch` and
`new_patch` are extracted: start `(marker.x - x0, marker.y - y0)` and the
same values in the two output variables. -/
def startCall (H : Int) (marker : Marker) (old_patch new_patch : FloatImage) : TrackerCall :=
  { old_patch := old_patch, new_patch := new_patch,
    x1 := marker.x - (truncToInt (marker.x - (H : ℚ)) : ℚ),
    y1 := marker.y - (truncToInt (marker.y - (H : ℚ)) : ℚ),
    x2 := marker.x - (truncToInt (marker.x - (H : ℚ)) : ℚ),
    y2 := marker.y - (truncToInt (marker.y - (H : ℚ)) : ℚ) }

/-- The marker that line 150 stores for `marker`: bound to
`(next, marker.track)`, at the output of the region tracker translated by
the patch offset, `(x1 + xx1, y1 + yy1)`. -/
def storedMarker (H : Int) (region_tracker : RegionTracker) (next : Int) (marker : Marker)
    (old_patch new_patch : FloatImage) : Marker :=
  { image := next, track := marker.track,
    x := (truncToInt (marker.x - (H : ℚ)) : ℚ) +
      (region_tracker (startCall H marker old_patch new_patch)).x2,
    y := (truncToInt (marker.y - (H : ℚ)) : ℚ) +
      (region_tracker (startCall H marker old_patch new_patch)).y2 }

/-- The sample buffer of the image holds at least `width * height` samples
(exactly that many when the rows are stored contiguously). -/
def QImage.covers (image : QImage) : Prop :=
  image.width * image.height ≤ (image.data.length : Int)

instance (image : QImage) : Decidable image.covers := by
  unfold QImage.covers; infer_instance

/-! ## RetrackVerifier (spec section 4.7) -/

/-- Modelled from the spec: the result of `RegionTracker.Track`, section 4.3,
`(refinedX, refinedY, succeeded)`. -/
structure Refined where
  refinedX : ℚ
  refinedY : ℚ
  succeeded : Bool
deriving DecidableEq, Repr

/-- Modelled from the spec: the `RegionTracker` interface of section 4.3,
`Track(oldPatch, newPatch, startX, startY) → (refinedX, refinedY, succeeded)`;
its implementations are not among the sources. -/
abbrev InnerTracker := FloatImage → FloatImage → ℚ → ℚ → Refined

/-- Modelled from the spec: "Euclidean distance ... exceeds ε", for the
distance of the vector `(dx, dy)`.  The square root is avoided:
`sqrt (dx² + dy²) > ε` holds exactly when `ε < 0` or `dx² + dy² > ε²`. -/
def distanceExceeds (dx dy eps : ℚ) : Bool :=
  decide (eps < 0) || decide (eps * eps < dx * dx + dy * dy)

/-- Modelled from the spec: `RetrackVerifier.Track`, section 4.7, whose class
(`RetrackRegionTracker`) is only constructed in `tracker.cc`.  Forward track;
fail if it fails; backward track from the candidate; fail if it fails; fail
if the distance between the start and the recovered position exceeds `eps`;
otherwise return the forward candidate.  `none` is failure. -/
def RetrackVerifier.Track (inner : InnerTracker) (eps : ℚ) (oldPatch newPatch : FloatImage)
    (startX startY : ℚ) : Option (ℚ × ℚ) :=
  let forward := inner oldPatch newPatch startX startY
  if !forward.succeeded then none
  else
    let backward := inner newPatch oldPatch forward.refinedX forward.refinedY
    if !backward.succeeded then none
    else if distanceExceeds (backward.refinedX - startX) (backward.refinedY - startY) eps then none
    else some (forward.refinedX, forward.refinedY)

/-! ## FeatureDetector (spec section 4.2) -/

/-- Modelled from the spec: a `DetectedFeature`, section 3, `(x, y, score)`. -/
structure DetectedFeature where
  x : ℚ
  y : ℚ
  score : ℚ
deriving DecidableEq, Repr

/-- Squared Euclidean distance between the positions of two features. -/
def DetectedFeature.distSq (p q : DetectedFeature) : ℚ :=
  (p.x - q.x) * (p.x - q.x) + (p.y - q.y) * (p.y - q.y)

/-- Modelled from the spec: "distance to an already-accepted point is below
`minDistance`".  The square root is avoided: `sqrt s < d` holds exactly when
`0 < d` and `s < d²`. -/
def tooClose (minDistance : ℚ) (p q : DetectedFeature) : Bool :=
  decide (0 < minDistance) && decide (p.distSq q < minDistance * minDistance)

/-- Modelled from the spec: steps 4 and 5 of section 4.2.  The candidates are
visited in order; a candidate too close to an accepted point is rejected;
the scan stops once `maxCount` points are accepted. -/
def acceptGreedy (minDistance : ℚ) (maxCount : Nat) :
    List DetectedFeature → List DetectedFeature → List DetectedFeature
  | [], accepted => accepted
  | c :: cs, accepted =>
    if maxCount ≤ accepted.length then accepted
    else if accepted.any (fun a => tooClose minDistance c a) then
      acceptGreedy minDistance maxCount cs accepted
    else acceptGreedy minDistance maxCount cs (accepted ++ [c])

/-- Modelled from the spec: `DetectGoodFeatures(image, minDistance, maxCount)`
of section 4.2, whose class (`KltContext`) is only called from
`klt_test.cc`.  Steps 1 and 2 (the corner score of every interior pixel)
are the parameter `cornerScores`; step 3 sorts by descending score; steps 4
and 5 are `acceptGreedy`. -/
def DetectGoodFeatures (cornerScores : FloatImage → List DetectedFeature)
    (image : FloatImage) (minDistance : ℚ) (maxCount : Nat) : List DetectedFeature :=
  acceptGreedy minDistance maxCount
    ((cornerScores image).insertionSort (fun a b => b.score ≤ a.score)) []

/-- Four scored candidates: two of them one pixel apart. -/
def fourCandidates : List DetectedFeature :=
  [{ x := 0, y := 0, score := 1 }, { x := 1, y := 0, score := 5 },
   { x := 3, y := 0, score := 2 }, { x := 10, y := 10, score := 3 }]

/-! ## Lemmas on the copy loops -/

theorem readSample_eq_some {data : List Nat} {i : Int} {v : Nat}
    (h : readSample data i = some v) : 0 ≤ i ∧ i < data.length := by
  unfold readSample at h
  split at h
  · rename_i hi
    refine ⟨hi, ?_⟩
    have hlt : i.toNat < data.length := by
      by_contra hcon
      rw [List.getElem?_eq_none (not_lt.mp hcon)] at h
      exact Option.noConfusion h
    omega
  · exact Option.noConfusion h

theorem readSample_isSome {data : List Nat} {i : Int}
    (h0 : 0 ≤ i) (h1 : i < data.length) : ∃ v, readSample data i = some v := by
  have hlt : i.toNat < data.length := by omega
  refine ⟨data[i.toNat], ?_⟩
  unfold readSample
  rw [if_pos h0, List.getElem?_eq_getElem hlt]

/-- What one run of the inner loop appends to the destination. -/
theorem copyRow_spec (data : List Nat) (width y : Int) :
    ∀ (n : Nat) (x : Int) (dst out : List ℚ),
      copyRow data width y n x dst = some out →
      out.length = dst.length + n ∧
      (∀ i, i < dst.length → out[i]? = dst[i]?) ∧
      (∀ k, k < n → ∃ v, readSample data (y * width + (x + (k : Int))) = some v ∧
        out[dst.length + k]? = some (v : ℚ)) := by
  intro n
  induction n with
  | zero =>
    intro x dst out h
    simp only [copyRow, Option.some.injEq] at h
    subst h
    exact ⟨rfl, fun _ _ => rfl, fun k hk => absurd hk (Nat.not_lt_zero k)⟩
  | succ n ih =>
    intro x dst out h
    unfold copyRow at h
    cases hr : readSample data (y * width + x) with
    | none => rw [hr] at h; exact Option.noConfusion h
    | some v =>
      rw [hr] at h
      obtain ⟨hlen, hpre, hnew⟩ := ih (x + 1) (dst ++ [(v : ℚ)]) out h
      have hl : (dst ++ [(v : ℚ)]).length = dst.length + 1 := by simp
      refine ⟨by rw [hlen, hl]; omega, ?_, ?_⟩
      · intro i hi
        rw [hpre i (by rw [hl]; omega), List.getElem?_append_left hi]
      · intro k hk
        cases k with
        | zero =>
          refine ⟨v, by simpa using hr, ?_⟩
          rw [Nat.add_zero, hpre dst.length (by rw [hl]; omega)]
          simp
        | succ j =>
          obtain ⟨u, hu, hout⟩ := hnew j (by omega)
          refine ⟨u, ?_, ?_⟩
          · rw [← hu]; congr 1; push_cast; ring
          · rw [← hout, hl]; congr 1; omega

/-- The inner loop completes when every sample it reads is in the buffer. -/
theorem copyRow_total (data : List Nat) (width y : Int) :
    ∀ (n : Nat) (x : Int) (dst : List ℚ),
      (∀ k, k < n → ∃ v, readSample data (y * width + (x + (k : Int))) = some v) →
      ∃ out, copyRow data width y n x dst = some out := by
  intro n
  induction n with
  | zero => intro x dst _; exact ⟨dst, rfl⟩
  | succ n ih =>
    intro x dst hall
    obtain ⟨v, hv⟩ := hall 0 (Nat.succ_pos n)
    have hv0 : readSample data (y * width + x) = some v := by simpa using hv
    unfold copyRow
    rw [hv0]
    apply ih
    intro k hk
    obtain ⟨u, hu⟩ := hall (k + 1) (by omega)
    refine ⟨u, ?_⟩
    rw [← hu]; congr 1; push_cast; ring

/-- What the two nested loops append to the destination. -/
theorem copyRows_spec (data : List Nat) (width x0 w : Int) :
    ∀ (n : Nat) (y : Int) (dst out : List ℚ),
      copyRows data width x0 w n y dst = some out →
      out.length = dst.length + n * w.toNat ∧
      (∀ i, i < dst.length → out[i]? = dst[i]?) ∧
      (∀ r c, r < n → c < w.toNat →
        ∃ v, readSample data ((y + (r : Int)) * width + (x0 + (c : Int))) = some v ∧
          out[dst.length + (r * w.toNat + c)]? = some (v : ℚ)) := by
  intro n
  induction n with
  | zero =>
    intro y dst out h
    simp only [copyRows, Option.some.injEq] at h
    subst h
    exact ⟨by simp, fun _ _ => rfl, fun r c hr _ => absurd hr (Nat.not_lt_zero r)⟩
  | succ n ih =>
    intro y dst out h
    unfold copyRows at h
    cases hrow : copyRow data width y w.toNat x0 dst with
    | none => rw [hrow] at h; exact Option.noConfusion h
    | some dst1 =>
      rw [hrow] at h
      obtain ⟨hlen1, hpre1, hnew1⟩ := copyRow_spec data width y w.toNat x0 dst dst1 hrow
      obtain ⟨hlen, hpre, hnew⟩ := ih (y + 1) dst1 out h
      refine ⟨by rw [hlen, hlen1, Nat.succ_mul]; omega, ?_, ?_⟩
      · intro i hi
        rw [hpre i (by omega), hpre1 i hi]
      · intro r c hr hc
        cases r with
        | zero =>
          obtain ⟨v, hv, hout⟩ := hnew1 c hc
          refine ⟨v, by simpa using hv, ?_⟩
          rw [← hout, hpre (dst.length + (0 * w.toNat + c)) (by omega)]
          congr 1; omega
        | succ j =>
          obtain ⟨v, hv, hout⟩ := hnew j c (by omega) hc
          refine ⟨v, ?_, ?_⟩
          · rw [← hv]; congr 1; push_cast; ring
          · rw [← hout, hlen1]; congr 1; rw [Nat.succ_mul]; omega

/-- The nested loops complete when every sample they read is in the buffer. -/
theorem copyRows_total (data : List Nat) (width x0 w : Int) :
    ∀ (n : Nat) (y : Int) (dst : List ℚ),
      (∀ r c, r < n → c < w.toNat →
        ∃ v, readSample data ((y + (r : Int)) * width + (x0 + (c : Int))) = some v) →
      ∃ out, copyRows data width x0 w n y dst = some out := by
  intro n
  induction n with
  | zero => intro y dst _; exact ⟨dst, rfl⟩
  | succ n ih =>
    intro y dst hall
    obtain ⟨dst1, h1⟩ := copyRow_total data width y w.toNat x0 dst (by
      intro k hk
      obtain ⟨v, hv⟩ := hall 0 k (Nat.succ_pos n) hk
      exact ⟨v, by simpa using hv⟩)
    unfold copyRows
    rw [h1]
    apply ih
    intro r c hr hc
    obtain ⟨v, hv⟩ := hall (r + 1) c (by omega) hc
    refine ⟨v, ?_⟩
    rw [← hv]; congr 1; push_cast; ring

/-- The early return of `CopyRegionFromQImage` is taken exactly when the
test of line 55 holds. -/
theorem CopyRegionFromQImage_rejected_iff (image : QImage) (w h x0 y0 : Int) :
    CopyRegionFromQImage image w h x0 y0 = CopyOutcome.rejected ↔
      (x0 < 0 ∨ y0 < 0 ∨ x0 + w ≥ image.width ∨ y0 + h ≥ image.height) := by
  have hb : regionLeavesImage image w h x0 y0 = true ↔
      (x0 < 0 ∨ y0 < 0 ∨ x0 + w ≥ image.width ∨ y0 + h ≥ image.height) := by
    simp [regionLeavesImage, or_assoc]
  unfold CopyRegionFromQImage
  by_cases hl : regionLeavesImage image w h x0 y0 = true
  · rw [if_pos hl]
    exact ⟨fun _ => hb.mp hl, fun _ => rfl⟩
  · rw [if_neg hl]
    constructor
    · intro hc
      cases hrows : copyRows image.data image.width x0 w h.toNat y0 [] with
      | none => rw [hrows] at hc; exact CopyOutcome.noConfusion hc
      | some dst => rw [hrows] at hc; exact CopyOutcome.noConfusion hc
    · intro hc
      exact absurd (hb.mpr hc) hl

/-- Every index of a window that passes the test of line 55 lies in a buffer
of `width * height` samples. -/
theorem window_index_in_bounds {width height w h x0 y0 y x : Int}
    (hx0 : 0 ≤ x0) (hy0 : 0 ≤ y0) (hxw : x0 + w < width) (hyh : y0 + h < height)
    (hy : y0 ≤ y) (hy1 : y < y0 + h) (hx : x0 ≤ x) (hx1 : x < x0 + w) :
    0 ≤ y * width + x ∧ y * width + x < width * height := by
  have hwpos : 0 < width := by omega
  have hy0' : 0 ≤ y := by omega
  have h1 : 0 ≤ y * width := mul_nonneg hy0' hwpos.le
  have h2 : (y + 1) * width ≤ height * width :=
    mul_le_mul_of_nonneg_right (by omega) hwpos.le
  constructor
  · omega
  · have h3 : y * width + x < (y + 1) * width := by
      have : (y + 1) * width = y * width + width := by ring
      omega
    calc y * width + x < (y + 1) * width := h3
      _ ≤ height * width := h2
      _ = width * height := by ring

theorem regionLeavesImage_eq_false {image : QImage} {w h x0 y0 : Int}
    (hc : regionLeavesImage image w h x0 y0 = false) :
    0 ≤ x0 ∧ 0 ≤ y0 ∧ x0 + w < image.width ∧ y0 + h < image.height := by
  simp only [regionLeavesImage, Bool.or_eq_false_iff, decide_eq_false_iff_not, not_lt,
    ge_iff_le, not_le] at hc
  obtain ⟨⟨⟨h1, h2⟩, h3⟩, h4⟩ := hc
  exact ⟨h1, h2, h3, h4⟩

/-- On an image whose buffer covers `width * height` samples, the copy loops
of a window that passed the test of line 55 run to completion and write
`h * w` samples. -/
theorem copyRows_complete {image : QImage} (hcov : image.covers) {w h x0 y0 : Int}
    (hc : regionLeavesImage image w h x0 y0 = false) :
    ∃ dst, copyRows image.data image.width x0 w h.toNat y0 [] = some dst ∧
      dst.length = h.toNat * w.toNat := by
  obtain ⟨hx0, hy0, hxw, hyh⟩ := regionLeavesImage_eq_false hc
  obtain ⟨dst, hdst⟩ := copyRows_total image.data image.width x0 w h.toNat y0 [] (by
    intro r c hr hcw
    have hb := window_index_in_bounds (y := y0 + (r : Int)) (x := x0 + (c : Int))
      hx0 hy0 hxw hyh (by omega) (by omega) (by omega) (by omega)
    unfold QImage.covers at hcov
    exact readSample_isSome hb.1 (lt_of_lt_of_le hb.2 hcov))
  refine ⟨dst, hdst, ?_⟩
  have := (copyRows_spec image.data image.width x0 w h.toNat y0 [] dst hdst).1
  simpa using this

/-- On an image whose buffer covers `width * height` samples the copy never
reads outside the buffer. -/
theorem CopyRegionFromQImage_ne_badRead {image : QImage} (hcov : image.covers)
    (w h x0 y0 : Int) : CopyRegionFromQImage image w h x0 y0 ≠ CopyOutcome.badRead := by
  unfold CopyRegionFromQImage
  cases hc : regionLeavesImage image w h x0 y0 with
  | true => simp
  | false =>
    obtain ⟨dst, hdst, _⟩ := copyRows_complete hcov hc
    simp [hdst]

/-! ## CopyRegionFromQImage: the claims -/

/-- C1 (defect of the code).  A 2 x 2 window with top-left corner (2, 2) lies
entirely inside a 4 x 4 image, touching its right and bottom edges, and
`CopyRegionFromQImage` nevertheless returns false for it: the test of line 55
compares with `>=` where "the region leaves the image" needs `>`. -/
theorem CopyRegionFromQImage_rejects_window_touching_edge :
    (0 ≤ (2 : Int) ∧ 0 ≤ (2 : Int) ∧ (2 : Int) + 2 ≤ 4 ∧ (2 : Int) + 2 ≤ 4) ∧
    (CopyRegionFromQImage
      { width := 4, height := 4, data := [0, 1, 2, 3, 4, 5, 6, 7, 8, 9, 10, 11, 12, 13, 14, 15] }
      2 2 2 2).returned = some false := by
  refine ⟨by decide, ?_⟩
  rfl

/-- C2.  When `CopyRegionFromQImage` returns true for a window with `w ≥ 0`
and `h ≥ 0`, the region has `h` rows and `w` columns, holds `h * w` samples,
and `region(r, c)` is the image sample at row `y0 + r`, column `x0 + c`, for
all `0 ≤ r < h` and `0 ≤ c < w`. -/
theorem CopyRegionFromQImage_copies_window (image : QImage) (w h x0 y0 : Int)
    (region : FloatImage) (hw : 0 ≤ w) (hh : 0 ≤ h)
    (hret : CopyRegionFromQImage image w h x0 y0 = CopyOutcome.copied region) :
    region.Height = h ∧ region.Width = w ∧ (region.Data.length : Int) = h * w ∧
    ∀ r c : Int, 0 ≤ r → r < h → 0 ≤ c → c < w →
      ∃ v : Nat, image.pixel (y0 + r) (x0 + c) = some v ∧ region.elem r c = some (v : ℚ) := by
  unfold CopyRegionFromQImage at hret
  split at hret
  · exact CopyOutcome.noConfusion hret
  · split at hret
    · exact CopyOutcome.noConfusion hret
    · rename_i dst hdst
      have hreg : region = { Height := h, Width := w, Data := dst } := by
        injection hret with hret
        exact hret.symm
      subst hreg
      obtain ⟨hlen, _, hnew⟩ := copyRows_spec image.data image.width x0 w h.toNat y0 [] dst hdst
      obtain ⟨wn, rfl⟩ := Int.eq_ofNat_of_zero_le hw
      obtain ⟨hn, rfl⟩ := Int.eq_ofNat_of_zero_le hh
      simp only [Int.toNat_ofNat, List.length_nil, Nat.zero_add] at hlen hnew
      refine ⟨rfl, rfl, by simp only [hlen]; push_cast; ring, ?_⟩
      intro r c hr0 hr1 hc0 hc1
      obtain ⟨rn, rfl⟩ := Int.eq_ofNat_of_zero_le hr0
      obtain ⟨cn, rfl⟩ := Int.eq_ofNat_of_zero_le hc0
      obtain ⟨v, hv, hout⟩ := hnew rn cn (by omega) (by omega)
      refine ⟨v, hv, ?_⟩
      unfold FloatImage.elem
      have hnn : (0 : Int) ≤ (rn : Int) * (wn : Int) + (cn : Int) := by positivity
      have hidx : ((rn : Int) * (wn : Int) + (cn : Int)).toNat = rn * wn + cn := by
        have : (rn : Int) * (wn : Int) + (cn : Int) = ((rn * wn + cn : Nat) : Int) := by
          push_cast; ring
        rw [this, Int.toNat_ofNat]
      simp only [hnn, if_true, hidx]
      exact hout

/-- Instance of C2: the 2 x 2 window at (1, 1) of a 4 x 4 image, and its
element at row 1, column 0. -/
theorem CopyRegionFromQImage_copies_window_witness :
    ∃ v : Nat,
      QImage.pixel
        { width := 4, height := 4,
          data := [0, 1, 2, 3, 4, 5, 6, 7, 8, 9, 10, 11, 12, 13, 14, 15] }
        (1 + 1) (1 + 0) = some v ∧
      FloatImage.elem { Height := 2, Width := 2, Data := [5, 6, 9, 10] } 1 0 = some (v : ℚ) :=
  (CopyRegionFromQImage_copies_window
    { width := 4, height := 4, data := [0, 1, 2, 3, 4, 5, 6, 7, 8, 9, 10, 11, 12, 13, 14, 15] }
    2 2 1 1 { Height := 2, Width := 2, Data := [5, 6, 9, 10] } (by decide) (by decide)
    (by simp [CopyRegionFromQImage, regionLeavesImage, copyRows, copyRow, readSample])).2.2.2
    1 0 (by decide) (by decide) (by decide) (by decide)

/-- C10.  For `w ≥ 0`, `h ≥ 0` and a buffer of exactly `width * height`
samples: when the bounds test of `CopyRegionFromQImage` passes, every index
`y * width + x` read by the copy loop lies in `[0, width * height)`, the call
returns true (it does not read outside the buffer), and exactly `w * h`
samples are written. -/
theorem CopyRegionFromQImage_reads_in_bounds (image : QImage) (w h x0 y0 : Int)
    (hw : 0 ≤ w) (hh : 0 ≤ h)
    (hlen : (image.data.length : Int) = image.width * image.height)
    (hcheck : regionLeavesImage image w h x0 y0 = false) :
    (∀ y x : Int, y0 ≤ y → y < y0 + h → x0 ≤ x → x < x0 + w →
      0 ≤ y * image.width + x ∧ y * image.width + x < image.width * image.height ∧
      (readSample image.data (y * image.width + x)).isSome = true) ∧
    (∃ region, CopyRegionFromQImage image w h x0 y0 = CopyOutcome.copied region ∧
      (region.Data.length : Int) = w * h) ∧
    CopyRegionFromQImage image w h x0 y0 ≠ CopyOutcome.badRead := by
  have hcov : image.covers := by unfold QImage.covers; omega
  obtain ⟨hx0, hy0, hxw, hyh⟩ := regionLeavesImage_eq_false hcheck
  refine ⟨?_, ?_, CopyRegionFromQImage_ne_badRead hcov w h x0 y0⟩
  · intro y x hy hy1 hx hx1
    have hb := window_index_in_bounds hx0 hy0 hxw hyh hy hy1 hx hx1
    obtain ⟨v, hv⟩ := readSample_isSome hb.1 (by rw [hlen]; exact hb.2)
    exact ⟨hb.1, hb.2, by rw [hv]; rfl⟩
  · obtain ⟨dst, hdst, hl⟩ := copyRows_complete hcov hcheck
    refine ⟨{ Height := h, Width := w, Data := dst }, ?_, ?_⟩
    · unfold CopyRegionFromQImage
      rw [hcheck, hdst]
      rfl
    · show (dst.length : Int) = w * h
      rw [hl]
      push_cast
      rw [Int.toNat_of_nonneg hw, Int.toNat_of_nonneg hh]
      ring

/-- Instance of C10: the 2 x 2 window at (1, 1) of a 4 x 4 image. -/
theorem CopyRegionFromQImage_reads_in_bounds_witness :
    ∃ region,
      CopyRegionFromQImage
        { width := 4, height := 4,
          data := [0, 1, 2, 3, 4, 5, 6, 7, 8, 9, 10, 11, 12, 13, 14, 15] }
        2 2 1 1 = CopyOutcome.copied region ∧
      (region.Data.length : Int) = 2 * 2 :=
  (CopyRegionFromQImage_reads_in_bounds
    { width := 4, height := 4, data := [0, 1, 2, 3, 4, 5, 6, 7, 8, 9, 10, 11, 12, 13, 14, 15] }
    2 2 1 1 (by decide) (by decide) (by decide) (by decide)).2.1

/-! ## Lemmas on the marker collection -/

theorem MarkerInImageForTrack_Insert_same (image track : Int) (x y : ℚ) (ms : List Marker) :
    MarkerInImageForTrack (Insert image track x y ms) image track =
      some { image := image, track := track, x := x, y := y } := by
  induction ms with
  | nil => simp [Insert, MarkerInImageForTrack]
  | cons m ms ih =>
    unfold Insert
    by_cases hk : m.image = image ∧ m.track = track
    · rw [if_pos hk]
      obtain ⟨h1, h2⟩ := hk
      simp [MarkerInImageForTrack, h1, h2]
    · rw [if_neg hk]
      unfold MarkerInImageForTrack at ih ⊢
      rw [List.find?_cons_of_neg _ (by simpa using hk)]
      exact ih

theorem MarkerInImageForTrack_Insert_other (image track : Int) (x y : ℚ) (ms : List Marker)
    (i t : Int) (hne : ¬(i = image ∧ t = track)) :
    MarkerInImageForTrack (Insert image track x y ms) i t = MarkerInImageForTrack ms i t := by
  induction ms with
  | nil =>
    have : ¬(image = i ∧ track = t) := fun h => hne ⟨h.1.symm, h.2.symm⟩
    simp [Insert, MarkerInImageForTrack, this]
  | cons m ms ih =>
    unfold Insert
    by_cases hk : m.image = image ∧ m.track = track
    · rw [if_pos hk]
      obtain ⟨h1, h2⟩ := hk
      have hn : ¬(m.image = i ∧ m.track = t) := by
        rw [h1, h2]; exact fun h => hne ⟨h.1.symm, h.2.symm⟩
      unfold MarkerInImageForTrack
      rw [List.find?_cons_of_neg _ (by simpa using hn),
        List.find?_cons_of_neg _ (by simpa using hn)]
    · rw [if_neg hk]
      unfold MarkerInImageForTrack at ih ⊢
      by_cases hm : m.image = i ∧ m.track = t
      · rw [List.find?_cons_of_pos _ (by simpa using hm),
          List.find?_cons_of_pos _ (by simpa using hm)]
      · rw [List.find?_cons_of_neg _ (by simpa using hm),
          List.find?_cons_of_neg _ (by simpa using hm)]
        exact ih

/-- An insertion for `(image, track)` leaves every marker bound to another
pair in place. -/
theorem filter_Insert (image track : Int) (x y : ℚ) (ms : List Marker) (keep : Marker → Bool)
    (hkeep : ∀ m : Marker, m.image = image → m.track = track → keep m = false) :
    (Insert image track x y ms).filter keep = ms.filter keep := by
  induction ms with
  | nil =>
    simp [Insert, hkeep]
  | cons m ms ih =>
    unfold Insert
    by_cases hk : m.image = image ∧ m.track = track
    · rw [if_pos hk]
      have h1 : keep m = false := hkeep m hk.1 hk.2
      have h2 : keep { m with x := x, y := y } = false := hkeep _ hk.1 hk.2
      simp [List.filter_cons, h1, h2]
    · rw [if_neg hk]
      simp only [List.filter_cons, ih]

/-! ## Lemmas on the loop of `Tracker::Track` -/

/-- One loop iteration on a marker depends on the state only through
`applyEffect`: whether it fails, skips or inserts, and what it inserts, is
fixed by the marker and the two images. -/
theorem trackMarker_effect (H : Int) (rt : RegionTracker) (next : Int)
    (old_image new_image : QImage) (marker : Marker) :
    ∃ u : Option (Option (ℚ × ℚ × TrackerCall)), ∀ (sel : List Int) (st : TrackState),
      trackMarker H rt sel next old_image new_image st marker =
        if sel.contains marker.track then u.map (fun e => applyEffect next marker.track e st)
        else some st := by
  cases h1 : CopyRegionFromQImage old_image (H * 2 + 1) (H * 2 + 1)
      (truncToInt (marker.x - (H : ℚ))) (truncToInt (marker.y - (H : ℚ))) with
  | rejected =>
    refine ⟨some none, fun sel st => ?_⟩
    unfold trackMarker
    cases hs : sel.contains marker.track <;> simp [h1, applyEffect]
  | badRead =>
    refine ⟨none, fun sel st => ?_⟩
    unfold trackMarker
    cases hs : sel.contains marker.track <;> simp [h1]
  | copied old_patch =>
    cases h2 : CopyRegionFromQImage new_image (H * 2 + 1) (H * 2 + 1)
        (truncToInt (marker.x - (H : ℚ))) (truncToInt (marker.y - (H : ℚ))) with
    | rejected =>
      refine ⟨some none, fun sel st => ?_⟩
      unfold trackMarker
      cases hs : sel.contains marker.track <;> simp [h1, h2, applyEffect]
    | badRead =>
      refine ⟨none, fun sel st => ?_⟩
      unfold trackMarker
      cases hs : sel.contains marker.track <;> simp [h1, h2]
    | copied new_patch =>
      refine ⟨some (some
        (((truncToInt (marker.x - (H : ℚ)) : Int) : ℚ) +
            (rt { old_patch := old_patch, new_patch := new_patch,
                  x1 := marker.x - ((truncToInt (marker.x - (H : ℚ)) : Int) : ℚ),
                  y1 := marker.y - ((truncToInt (marker.y - (H : ℚ)) : Int) : ℚ),
                  x2 := marker.x - ((truncToInt (marker.x - (H : ℚ)) : Int) : ℚ),
                  y2 := marker.y - ((truncToInt (marker.y - (H : ℚ)) : Int) : ℚ) }).x2,
         ((truncToInt (marker.y - (H : ℚ)) : Int) : ℚ) +
            (rt { old_patch := old_patch, new_patch := new_patch,
                  x1 := marker.x - ((truncToInt (marker.x - (H : ℚ)) : Int) : ℚ),
                  y1 := marker.y - ((truncToInt (marker.y - (H : ℚ)) : Int) : ℚ),
                  x2 := marker.x - ((truncToInt (marker.x - (H : ℚ)) : Int) : ℚ),
                  y2 := marker.y - ((truncToInt (marker.y - (H : ℚ)) : Int) : ℚ) }).y2,
         { old_patch := old_patch, new_patch := new_patch,
           x1 := marker.x - ((truncToInt (marker.x - (H : ℚ)) : Int) : ℚ),
           y1 := marker.y - ((truncToInt (marker.y - (H : ℚ)) : Int) : ℚ),
           x2 := marker.x - ((truncToInt (marker.x - (H : ℚ)) : Int) : ℚ),
           y2 := marker.y - ((truncToInt (marker.y - (H : ℚ)) : Int) : ℚ) })),
        fun sel st => ?_⟩
      unfold trackMarker
      cases hs : sel.contains marker.track
      · simp
      · simp only [h1, h2, Bool.not_true, Bool.false_eq_true, if_false, if_true, Option.map_some',
          applyEffect]

theorem trackLoop_append (H : Int) (rt : RegionTracker) (sel : List Int) (next : Int)
    (old_image new_image : QImage) (pre post : List Marker) :
    ∀ st : TrackState,
      trackLoop H rt sel next old_image new_image (pre ++ post) st =
        (trackLoop H rt sel next old_image new_image pre st).bind
          (trackLoop H rt sel next old_image new_image post) := by
  induction pre with
  | nil => intro st; rfl
  | cons m pre ih =>
    intro st
    simp only [List.cons_append, trackLoop]
    cases trackMarker H rt sel next old_image new_image st m with
    | none => rfl
    | some st1 => exact ih st1

/-- Truncation toward zero is off by less than one. -/
theorem truncToInt_error (q : ℚ) :
    -1 < q - (truncToInt q : ℚ) ∧ q - (truncToInt q : ℚ) < 1 := by
  unfold truncToInt
  split
  · have h1 := Int.floor_le q
    have h2 := Int.lt_floor_add_one q
    constructor <;> linarith
  · have h1 := Int.le_ceil q
    have h2 := Int.ceil_lt_add_one q
    constructor <;> linarith

/-- A marker whose extraction is rejected in the old or in the new image
leaves the state of the loop as it is. -/
theorem trackMarker_of_rejected (H : Int) (rt : RegionTracker) (sel : List Int) (next : Int)
    (old_image new_image : QImage) (hold : old_image.covers) (marker : Marker)
    (hfail :
      CopyRegionFromQImage old_image (H * 2 + 1) (H * 2 + 1)
          (truncToInt (marker.x - (H : ℚ))) (truncToInt (marker.y - (H : ℚ)))
        = CopyOutcome.rejected ∨
      CopyRegionFromQImage new_image (H * 2 + 1) (H * 2 + 1)
          (truncToInt (marker.x - (H : ℚ))) (truncToInt (marker.y - (H : ℚ)))
        = CopyOutcome.rejected)
    (st : TrackState) :
    trackMarker H rt sel next old_image new_image st marker = some st := by
  unfold trackMarker
  cases hs : sel.contains marker.track
  · simp
  · cases h1 : CopyRegionFromQImage old_image (H * 2 + 1) (H * 2 + 1)
        (truncToInt (marker.x - (H : ℚ))) (truncToInt (marker.y - (H : ℚ))) with
    | rejected => simp [h1]
    | badRead => exact absurd h1 (CopyRegionFromQImage_ne_badRead hold _ _ _ _)
    | copied old_patch =>
      rcases hfail with hf | hf
      · rw [h1] at hf; exact CopyOutcome.noConfusion hf
      · simp [h1, hf]

/-- A marker that is selected and extracted from both images: the loop body
calls the region tracker once and inserts its output, translated by the
patch offset. -/
theorem trackMarker_of_copied (H : Int) (rt : RegionTracker) (sel : List Int) (next : Int)
    (old_image new_image : QImage) (st : TrackState) (marker : Marker)
    (old_patch new_patch : FloatImage)
    (hsel : sel.contains marker.track = true)
    (hold : CopyRegionFromQImage old_image (H * 2 + 1) (H * 2 + 1)
        (truncToInt (marker.x - (H : ℚ))) (truncToInt (marker.y - (H : ℚ)))
      = CopyOutcome.copied old_patch)
    (hnew : CopyRegionFromQImage new_image (H * 2 + 1) (H * 2 + 1)
        (truncToInt (marker.x - (H : ℚ))) (truncToInt (marker.y - (H : ℚ)))
      = CopyOutcome.copied new_patch) :
    trackMarker H rt sel next old_image new_image st marker =
      some
        { markers_ :=
            Insert next marker.track
              ((truncToInt (marker.x - (H : ℚ)) : ℚ) +
                (rt { old_patch := old_patch, new_patch := new_patch,
                      x1 := marker.x - (truncToInt (marker.x - (H : ℚ)) : ℚ),
                      y1 := marker.y - (truncToInt (marker.y - (H : ℚ)) : ℚ),
                      x2 := marker.x - (truncToInt (marker.x - (H : ℚ)) : ℚ),
                      y2 := marker.y - (truncToInt (marker.y - (H : ℚ)) : ℚ) }).x2)
              ((truncToInt (marker.y - (H : ℚ)) : ℚ) +
                (rt { old_patch := old_patch, new_patch := new_patch,
                      x1 := marker.x - (truncToInt (marker.x - (H : ℚ)) : ℚ),
                      y1 := marker.y - (truncToInt (marker.y - (H : ℚ)) : ℚ),
                      x2 := marker.x - (truncToInt (marker.x - (H : ℚ)) : ℚ),
                      y2 := marker.y - (truncToInt (marker.y - (H : ℚ)) : ℚ) }).y2)
              st.markers_,
          calls := st.calls ++
            [{ old_patch := old_patch, new_patch := new_patch,
               x1 := marker.x - (truncToInt (marker.x - (H : ℚ)) : ℚ),
               y1 := marker.y - (truncToInt (marker.y - (H : ℚ)) : ℚ),
               x2 := marker.x - (truncToInt (marker.x - (H : ℚ)) : ℚ),
               y2 := marker.y - (truncToInt (marker.y - (H : ℚ)) : ℚ) }] } := by
  unfold trackMarker
  simp only [hsel, hold, hnew, Bool.not_true, Bool.false_eq_true, if_false]

/-- The loop body does not look at the Boolean a region tracker returns. -/
theorem trackMarker_congr (H : Int) (rt1 rt2 : RegionTracker)
    (hpos : ∀ c, (rt1 c).x2 = (rt2 c).x2 ∧ (rt1 c).y2 = (rt2 c).y2)
    (sel : List Int) (next : Int) (old_image new_image : QImage) (st : TrackState)
    (marker : Marker) :
    trackMarker H rt1 sel next old_image new_image st marker =
      trackMarker H rt2 sel next old_image new_image st marker := by
  unfold trackMarker
  simp only [(hpos _).1, (hpos _).2]

theorem trackLoop_congr (H : Int) (rt1 rt2 : RegionTracker)
    (hpos : ∀ c, (rt1 c).x2 = (rt2 c).x2 ∧ (rt1 c).y2 = (rt2 c).y2)
    (sel : List Int) (next : Int) (old_image new_image : QImage) (l : List Marker) :
    ∀ st : TrackState,
      trackLoop H rt1 sel next old_image new_image l st =
        trackLoop H rt2 sel next old_image new_image l st := by
  induction l with
  | nil => intro st; rfl
  | cons m l ih =>
    intro st
    simp only [trackLoop, trackMarker_congr H rt1 rt2 hpos]
    cases trackMarker H rt2 sel next old_image new_image st m with
    | none => rfl
    | some st1 => exact ih st1

theorem truncToInt_two_sub_one : truncToInt ((2 : ℚ) - ((1 : Int) : ℚ)) = 1 := by
  norm_num [truncToInt]

theorem truncToInt_four_sub_one : truncToInt ((4 : ℚ) - ((1 : Int) : ℚ)) = 3 := by
  norm_num [truncToInt]

theorem truncToInt_five_halves_sub_one : truncToInt ((5 / 2 : ℚ) - ((1 : Int) : ℚ)) = 1 := by
  have h : (5 / 2 : ℚ) - ((1 : Int) : ℚ) = 3 / 2 := by norm_num
  rw [h]
  unfold truncToInt
  rw [if_pos (by norm_num)]
  exact Int.floor_eq_iff.mpr ⟨by norm_num, by norm_num⟩

theorem frame6_covers : frame6.covers := by
  unfold QImage.covers frame6
  decide

theorem frame6_patch : CopyRegionFromQImage frame6 (1 * 2 + 1) (1 * 2 + 1) 1 1
    = CopyOutcome.copied patch6 := by
  simp [CopyRegionFromQImage, regionLeavesImage, copyRows, copyRow, readSample, frame6, patch6]

theorem frame6_rejects : CopyRegionFromQImage frame6 (1 * 2 + 1) (1 * 2 + 1) 3 3
    = CopyOutcome.rejected := by
  simp [CopyRegionFromQImage, regionLeavesImage, frame6]

/-! ## Tracker::Track: the claims -/

/-- C3.  In `Tracker::Track`, when the extraction of the search patch of a
marker fails in the old image or in the new image, the loop body leaves the
marker collection and the log of region-tracker calls as they are (no call,
no insertion), and the loop processes the other markers as if the marker
were not in the list. -/
theorem Track_skips_marker_when_extraction_fails (H : Int) (rt : RegionTracker)
    (sel : List Int) (next : Int) (old_image new_image : QImage) (hold : old_image.covers)
    (marker : Marker)
    (hfail :
      CopyRegionFromQImage old_image (H * 2 + 1) (H * 2 + 1)
          (truncToInt (marker.x - (H : ℚ))) (truncToInt (marker.y - (H : ℚ)))
        = CopyOutcome.rejected ∨
      CopyRegionFromQImage new_image (H * 2 + 1) (H * 2 + 1)
          (truncToInt (marker.x - (H : ℚ))) (truncToInt (marker.y - (H : ℚ)))
        = CopyOutcome.rejected) :
    (∀ st, trackMarker H rt sel next old_image new_image st marker = some st) ∧
    (∀ pre post st,
      trackLoop H rt sel next old_image new_image (pre ++ marker :: post) st =
        trackLoop H rt sel next old_image new_image (pre ++ post) st) ∧
    (∀ markers_ previous pre post,
      MarkersInImage markers_ previous = pre ++ marker :: post →
      Track H rt markers_ sel previous next old_image new_image =
        trackLoop H rt sel next old_image new_image (pre ++ post)
          { markers_ := markers_, calls := [] }) := by
  have hbody := trackMarker_of_rejected H rt sel next old_image new_image hold marker hfail
  have hloop : ∀ pre post st,
      trackLoop H rt sel next old_image new_image (pre ++ marker :: post) st =
        trackLoop H rt sel next old_image new_image (pre ++ post) st := by
    intro pre post st
    rw [trackLoop_append, trackLoop_append]
    cases trackLoop H rt sel next old_image new_image pre st with
    | none => rfl
    | some st1 =>
      simp only [Option.some_bind, trackLoop, hbody st1]
  refine ⟨hbody, hloop, ?_⟩
  intro markers_ previous pre post hprev
  unfold Track
  simp only [hprev]
  exact hloop pre post _

/-- Instance of C3: with a half window of 1 on `frame6`, the marker at (4, 4)
needs the window at (3, 3), which the extraction rejects; the loop over the
markers at (5/2, 2) and (4, 4) ends as the loop over the first alone. -/
theorem Track_skips_marker_when_extraction_fails_witness :
    trackLoop 1 shiftTracker [1, 2] 1 frame6 frame6
        ([{ image := 0, track := 1, x := 5 / 2, y := 2 }] ++
          { image := 0, track := 2, x := 4, y := 4 } :: [])
        { markers_ := [], calls := [] } =
      trackLoop 1 shiftTracker [1, 2] 1 frame6 frame6
        ([{ image := 0, track := 1, x := 5 / 2, y := 2 }] ++ [])
        { markers_ := [], calls := [] } :=
  (Track_skips_marker_when_extraction_fails 1 shiftTracker [1, 2] 1 frame6 frame6 frame6_covers
    { image := 0, track := 2, x := 4, y := 4 }
    (Or.inl (by
      show CopyRegionFromQImage frame6 (1 * 2 + 1) (1 * 2 + 1)
        (truncToInt ((4 : ℚ) - ((1 : Int) : ℚ))) (truncToInt ((4 : ℚ) - ((1 : Int) : ℚ))) = _
      rw [truncToInt_four_sub_one]
      exact frame6_rejects))).2.1 _ _ _

/-- C4.  In `Tracker::Track` (exact arithmetic), for a selected marker whose
two patches are extracted at the integer offset `(x0, y0)`: the region
tracker is started at `(marker.x - x0, marker.y - y0)`, and the position
stored for `(next, marker.track)` is its output translated back by the
offset, `(x0 + xx1, y0 + yy1)`.  So an output `start + d` stores
`marker + d`, and an output equal to the start stores the marker position. -/
theorem Track_inserts_translated_position (H : Int) (rt : RegionTracker)
    (sel : List Int) (next : Int) (old_image new_image : QImage) (st : TrackState)
    (marker : Marker) (old_patch new_patch : FloatImage) (x0 y0 : Int) (call : TrackerCall)
    (hsel : sel.contains marker.track = true)
    (hx0 : x0 = truncToInt (marker.x - (H : ℚ)))
    (hy0 : y0 = truncToInt (marker.y - (H : ℚ)))
    (hold : CopyRegionFromQImage old_image (H * 2 + 1) (H * 2 + 1) x0 y0
      = CopyOutcome.copied old_patch)
    (hnew : CopyRegionFromQImage new_image (H * 2 + 1) (H * 2 + 1) x0 y0
      = CopyOutcome.copied new_patch)
    (hcall : call = { old_patch := old_patch, new_patch := new_patch,
                      x1 := marker.x - (x0 : ℚ), y1 := marker.y - (y0 : ℚ),
                      x2 := marker.x - (x0 : ℚ), y2 := marker.y - (y0 : ℚ) }) :
    ∃ st1, trackMarker H rt sel next old_image new_image st marker = some st1 ∧
      st1.calls = st.calls ++ [call] ∧
      st1.markers_ =
        Insert next marker.track ((x0 : ℚ) + (rt call).x2) ((y0 : ℚ) + (rt call).y2)
          st.markers_ ∧
      MarkerInImageForTrack st1.markers_ next marker.track =
        some { image := next, track := marker.track,
               x := (x0 : ℚ) + (rt call).x2, y := (y0 : ℚ) + (rt call).y2 } ∧
      (∀ dx dy : ℚ, (rt call).x2 = call.x1 + dx → (rt call).y2 = call.y1 + dy →
        MarkerInImageForTrack st1.markers_ next marker.track =
          some { image := next, track := marker.track,
                 x := marker.x + dx, y := marker.y + dy }) ∧
      ((rt call).x2 = call.x1 → (rt call).y2 = call.y1 →
        MarkerInImageForTrack st1.markers_ next marker.track =
          some { image := next, track := marker.track, x := marker.x, y := marker.y }) := by
  subst hx0 hy0 hcall
  have hbody := trackMarker_of_copied H rt sel next old_image new_image st marker
    old_patch new_patch hsel hold hnew
  refine ⟨_, hbody, rfl, rfl, MarkerInImageForTrack_Insert_same _ _ _ _ _, ?_, ?_⟩
  · intro dx dy hdx hdy
    simp only [MarkerInImageForTrack_Insert_same, hdx, hdy, Option.some.injEq, Marker.mk.injEq,
      true_and]
    constructor <;> ring
  · intro hdx hdy
    simp only [MarkerInImageForTrack_Insert_same, hdx, hdy, Option.some.injEq, Marker.mk.injEq,
      true_and]
    constructor <;> ring

/-- Instance of C4: half window 1 on `frame6`, the marker of track 2 at
(5/2, 2), tracked by `shiftTracker` from offset (1, 1). -/
theorem Track_inserts_translated_position_witness :
    ∃ st1, trackMarker 1 shiftTracker [2] 1 frame6 frame6 { markers_ := [], calls := [] }
        { image := 0, track := 2, x := 5 / 2, y := 2 } = some st1 ∧
      MarkerInImageForTrack st1.markers_ 1 2 =
        some { image := 1, track := 2, x := 5 / 2 + 1 / 2, y := 2 + -(1 / 4) } := by
  obtain ⟨st1, h1, _, _, _, h5, _⟩ :=
    Track_inserts_translated_position 1 shiftTracker [2] 1 frame6 frame6
      { markers_ := [], calls := [] } { image := 0, track := 2, x := 5 / 2, y := 2 }
      patch6 patch6 1 1 _ (by decide) truncToInt_five_halves_sub_one.symm
      truncToInt_two_sub_one.symm frame6_patch frame6_patch rfl
  exact ⟨st1, h1, h5 (1 / 2) (-(1 / 4)) rfl (by simp only [shiftTracker]; ring)⟩

/-! ## RetrackVerifier: the claim -/

/-- The rational test `distanceExceeds` decides "the Euclidean length of
`(dx, dy)` exceeds `eps`". -/
theorem distanceExceeds_eq_false_iff (dx dy eps : ℚ) :
    distanceExceeds dx dy eps = false ↔
      Real.sqrt (((dx ^ 2 + dy ^ 2 : ℚ) : ℝ)) ≤ (eps : ℝ) := by
  unfold distanceExceeds
  rw [Real.sqrt_le_iff]
  simp only [Bool.or_eq_false_iff, decide_eq_false_iff_not, not_lt]
  constructor
  · rintro ⟨h0, h1⟩
    refine ⟨by exact_mod_cast h0, ?_⟩
    have : dx ^ 2 + dy ^ 2 ≤ eps ^ 2 := by nlinarith
    exact_mod_cast this
  · rintro ⟨h0, h1⟩
    have h0' : 0 ≤ eps := by exact_mod_cast h0
    have h1' : dx ^ 2 + dy ^ 2 ≤ eps ^ 2 := by exact_mod_cast h1
    exact ⟨h0', by nlinarith⟩

/-- C7.  `RetrackVerifier.Track` (for every inner tracker and threshold)
succeeds exactly when the forward track succeeds, the backward track from the
forward candidate succeeds, and the Euclidean distance between the start and
the backward-recovered position does not exceed `eps`; a position it returns
is the forward candidate. -/
theorem RetrackVerifier_Track_accepts_iff (inner : InnerTracker) (eps : ℚ)
    (oldPatch newPatch : FloatImage) (startX startY : ℚ) :
    ((RetrackVerifier.Track inner eps oldPatch newPatch startX startY).isSome = true ↔
      (inner oldPatch newPatch startX startY).succeeded = true ∧
      (inner newPatch oldPatch (inner oldPatch newPatch startX startY).refinedX
          (inner oldPatch newPatch startX startY).refinedY).succeeded = true ∧
      Real.sqrt
        ((((inner newPatch oldPatch (inner oldPatch newPatch startX startY).refinedX
              (inner oldPatch newPatch startX startY).refinedY).refinedX - startX) ^ 2 +
          ((inner newPatch oldPatch (inner oldPatch newPatch startX startY).refinedX
              (inner oldPatch newPatch startX startY).refinedY).refinedY - startY) ^ 2 : ℚ) : ℝ)
        ≤ (eps : ℝ)) ∧
    (∀ p, RetrackVerifier.Track inner eps oldPatch newPatch startX startY = some p →
      p = ((inner oldPatch newPatch startX startY).refinedX,
           (inner oldPatch newPatch startX startY).refinedY)) := by
  unfold RetrackVerifier.Track
  rw [← distanceExceeds_eq_false_iff]
  cases hf : (inner oldPatch newPatch startX startY).succeeded with
  | false => simp [hf]
  | true =>
    cases hb : (inner newPatch oldPatch (inner oldPatch newPatch startX startY).refinedX
        (inner oldPatch newPatch startX startY).refinedY).succeeded with
    | false => simp [hf, hb]
    | true =>
      cases hd : distanceExceeds
          ((inner newPatch oldPatch (inner oldPatch newPatch startX startY).refinedX
            (inner oldPatch newPatch startX startY).refinedY).refinedX - startX)
          ((inner newPatch oldPatch (inner oldPatch newPatch startX startY).refinedX
            (inner oldPatch newPatch startX startY).refinedY).refinedY - startY) eps with
      | false =>
        simp only [hf, hb, hd, Bool.not_true, Bool.false_eq_true, if_false, Option.isSome_some,
          and_self, true_and, Option.some.injEq]
        intro p hp
        exact hp.symm
      | true => simp [hf, hb, hd]

/-! ## FeatureDetector: the claim -/

theorem DetectedFeature.distSq_comm (p q : DetectedFeature) : p.distSq q = q.distSq p := by
  unfold DetectedFeature.distSq
  ring

theorem tooClose_comm (d : ℚ) (p q : DetectedFeature) : tooClose d p q = tooClose d q p := by
  unfold tooClose
  rw [DetectedFeature.distSq_comm]

/-- A pair that the suppression test lets pass is at distance at least
`minDistance`. -/
theorem le_distance_of_tooClose_eq_false (d : ℚ) (p q : DetectedFeature)
    (h : tooClose d p q = false) :
    (d : ℝ) ≤ Real.sqrt ((p.distSq q : ℚ) : ℝ) := by
  unfold tooClose at h
  simp only [Bool.and_eq_false_iff, decide_eq_false_iff_not, not_lt] at h
  rcases h with h | h
  · have : (d : ℝ) ≤ 0 := by exact_mod_cast h
    exact le_trans this (Real.sqrt_nonneg _)
  · by_cases hd : 0 < d
    · have hd' : (0 : ℝ) < (d : ℝ) := by exact_mod_cast hd
      rw [Real.le_sqrt' hd']
      have : d ^ 2 ≤ p.distSq q := by rw [sq]; exact h
      exact_mod_cast this
    · have : (d : ℝ) ≤ 0 := by exact_mod_cast not_lt.mp hd
      exact le_trans this (Real.sqrt_nonneg _)

/-- The greedy scan keeps the accepted points pairwise not too close. -/
theorem acceptGreedy_pairwise (d : ℚ) (maxCount : Nat) :
    ∀ (cs accepted : List DetectedFeature),
      accepted.Pairwise (fun p q => tooClose d p q = false) →
      (acceptGreedy d maxCount cs accepted).Pairwise (fun p q => tooClose d p q = false) := by
  intro cs
  induction cs with
  | nil => intro accepted h; exact h
  | cons c cs ih =>
    intro accepted h
    unfold acceptGreedy
    split
    · exact h
    · split
      · exact ih accepted h
      · rename_i hany
        apply ih
        rw [List.pairwise_append]
        refine ⟨h, List.pairwise_singleton _ _, ?_⟩
        intro a ha b hb
        rw [List.mem_singleton] at hb
        subst hb
        rw [tooClose_comm]
        by_contra hcon
        apply hany
        rw [List.any_eq_true]
        exact ⟨a, ha, by simpa using hcon⟩

/-- C6.  For every image, minimum distance `d` and count limit, no two
distinct points of the set returned by `DetectGoodFeatures` are closer than
`d`: their Euclidean distance is at least `d`. -/
theorem DetectGoodFeatures_min_distance (cornerScores : FloatImage → List DetectedFeature)
    (image : FloatImage) (d : ℚ) (maxCount : Nat) (p q : DetectedFeature)
    (hp : p ∈ DetectGoodFeatures cornerScores image d maxCount)
    (hq : q ∈ DetectGoodFeatures cornerScores image d maxCount)
    (hne : p ≠ q) :
    (d : ℝ) ≤ Real.sqrt ((p.distSq q : ℚ) : ℝ) := by
  have hpw := acceptGreedy_pairwise d maxCount
    ((cornerScores image).insertionSort (fun a b => b.score ≤ a.score)) []
    List.Pairwise.nil
  have hsymm : Symmetric (fun p q : DetectedFeature => tooClose d p q = false) := by
    intro a b hab
    rw [tooClose_comm]; exact hab
  exact le_distance_of_tooClose_eq_false d p q (hpw.forall hsymm hp hq hne)

theorem fourCandidates_detected :
    DetectGoodFeatures (fun _ => fourCandidates) patch6 2 10 =
      [{ x := 1, y := 0, score := 5 }, { x := 10, y := 10, score := 3 },
       { x := 3, y := 0, score := 2 }] := by
  norm_num [DetectGoodFeatures, fourCandidates, List.insertionSort, List.orderedInsert,
    acceptGreedy, tooClose, DetectedFeature.distSq]

/-- Instance of C6: of `fourCandidates` with minimum distance 2, the points
(1, 0) and (3, 0) are both returned, and they are 2 apart. -/
theorem DetectGoodFeatures_min_distance_witness :
    (((2 : ℚ) : ℝ) ≤
      Real.sqrt
        ((DetectedFeature.distSq { x := 1, y := 0, score := 5 } { x := 3, y := 0, score := 2 }
          : ℚ) : ℝ)) :=
  DetectGoodFeatures_min_distance (fun _ => fourCandidates) patch6 2 10
    { x := 1, y := 0, score := 5 } { x := 3, y := 0, score := 2 }
    (by rw [fourCandidates_detected]; simp)
    (by rw [fourCandidates_detected]; simp)
    (by simp)

/-! ## Tracker::Track: the frame of the call -/

/-- What one loop iteration can do to the state. -/
theorem trackMarker_cases (H : Int) (rt : RegionTracker) (sel : List Int) (next : Int)
    (old_image new_image : QImage) (st st1 : TrackState) (marker : Marker)
    (h : trackMarker H rt sel next old_image new_image st marker = some st1) :
    st1 = st ∨ (sel.contains marker.track = true ∧ ∃ x y c,
      st1 = { markers_ := Insert next marker.track x y st.markers_,
              calls := st.calls ++ [c] }) := by
  obtain ⟨u, hu⟩ := trackMarker_effect H rt next old_image new_image marker
  rw [hu sel st] at h
  cases hs : sel.contains marker.track with
  | false =>
    rw [hs] at h
    simp only [Bool.false_eq_true, if_false, Option.some.injEq] at h
    exact Or.inl h.symm
  | true =>
    rw [hs] at h
    simp only [if_true] at h
    cases u with
    | none => exact Option.noConfusion h
    | some e =>
      simp only [Option.map_some', Option.some.injEq] at h
      cases e with
      | none => exact Or.inl h.symm
      | some e =>
        obtain ⟨x, y, c⟩ := e
        exact Or.inr ⟨rfl, x, y, c, h.symm⟩

/-- On images whose buffers cover their dimensions, a loop iteration never
reads outside a buffer. -/
theorem trackMarker_isSome (H : Int) (rt : RegionTracker) (sel : List Int) (next : Int)
    (old_image new_image : QImage) (hold : old_image.covers) (hnew : new_image.covers)
    (st : TrackState) (marker : Marker) :
    ∃ st1, trackMarker H rt sel next old_image new_image st marker = some st1 := by
  cases hs : sel.contains marker.track
  · exact ⟨st, by unfold trackMarker; simp only [hs, Bool.not_false, if_true]⟩
  · cases h1 : CopyRegionFromQImage old_image (H * 2 + 1) (H * 2 + 1)
        (truncToInt (marker.x - (H : ℚ))) (truncToInt (marker.y - (H : ℚ))) with
    | rejected =>
      exact ⟨st, trackMarker_of_rejected H rt sel next old_image new_image hold marker
        (Or.inl h1) st⟩
    | badRead => exact absurd h1 (CopyRegionFromQImage_ne_badRead hold _ _ _ _)
    | copied old_patch =>
      cases h2 : CopyRegionFromQImage new_image (H * 2 + 1) (H * 2 + 1)
          (truncToInt (marker.x - (H : ℚ))) (truncToInt (marker.y - (H : ℚ))) with
      | rejected =>
        exact ⟨st, trackMarker_of_rejected H rt sel next old_image new_image hold marker
          (Or.inr h2) st⟩
      | badRead => exact absurd h2 (CopyRegionFromQImage_ne_badRead hnew _ _ _ _)
      | copied new_patch =>
        exact ⟨_, trackMarker_of_copied H rt sel next old_image new_image st marker
          old_patch new_patch hs h1 h2⟩

theorem trackLoop_isSome (H : Int) (rt : RegionTracker) (sel : List Int) (next : Int)
    (old_image new_image : QImage) (hold : old_image.covers) (hnew : new_image.covers)
    (l : List Marker) :
    ∀ st, ∃ st1, trackLoop H rt sel next old_image new_image l st = some st1 := by
  induction l with
  | nil => intro st; exact ⟨st, rfl⟩
  | cons m l ih =>
    intro st
    obtain ⟨st', h'⟩ := trackMarker_isSome H rt sel next old_image new_image hold hnew st m
    obtain ⟨st1, h1⟩ := ih st'
    exact ⟨st1, by simp only [trackLoop, h', h1]⟩

theorem trackLoop_cons_eq_some (H : Int) (rt : RegionTracker) (sel : List Int) (next : Int)
    (old_image new_image : QImage) (m : Marker) (l : List Marker) (st st1 : TrackState)
    (h : trackLoop H rt sel next old_image new_image (m :: l) st = some st1) :
    ∃ st', trackMarker H rt sel next old_image new_image st m = some st' ∧
      trackLoop H rt sel next old_image new_image l st' = some st1 := by
  simp only [trackLoop] at h
  cases h' : trackMarker H rt sel next old_image new_image st m with
  | none => rw [h'] at h; exact Option.noConfusion h
  | some st' => rw [h'] at h; exact ⟨st', rfl, h⟩

/-- The loop keeps every marker whose key none of the processed markers can
write. -/
theorem trackLoop_filter (H : Int) (rt : RegionTracker) (sel : List Int) (next : Int)
    (old_image new_image : QImage) (keep : Marker → Bool) (l : List Marker)
    (hkeep : ∀ p ∈ l, sel.contains p.track = true →
      ∀ m : Marker, m.image = next → m.track = p.track → keep m = false) :
    ∀ st st1, trackLoop H rt sel next old_image new_image l st = some st1 →
      st1.markers_.filter keep = st.markers_.filter keep := by
  induction l with
  | nil =>
    intro st st1 h
    simp only [trackLoop, Option.some.injEq] at h
    rw [h]
  | cons p l ih =>
    intro st st1 h
    obtain ⟨st', h1, h2⟩ := trackLoop_cons_eq_some H rt sel next old_image new_image p l st st1 h
    have hrest := ih (fun q hq => hkeep q (List.mem_cons_of_mem _ hq)) st' st1 h2
    rw [hrest]
    rcases trackMarker_cases H rt sel next old_image new_image st st' p h1 with hst | hst
    · rw [hst]
    · obtain ⟨hs, x, y, c, hst⟩ := hst
      rw [hst]
      exact filter_Insert next p.track x y st.markers_ keep
        (hkeep p (List.mem_cons_self _ _) hs)

/-- The loop keeps the marker bound to every key that none of the processed
markers can write. -/
theorem trackLoop_lookup (H : Int) (rt : RegionTracker) (sel : List Int) (next : Int)
    (old_image new_image : QImage) (i t : Int) (l : List Marker)
    (hkey : ∀ p ∈ l, sel.contains p.track = true → ¬(i = next ∧ t = p.track)) :
    ∀ st st1, trackLoop H rt sel next old_image new_image l st = some st1 →
      MarkerInImageForTrack st1.markers_ i t = MarkerInImageForTrack st.markers_ i t := by
  induction l with
  | nil =>
    intro st st1 h
    simp only [trackLoop, Option.some.injEq] at h
    rw [h]
  | cons p l ih =>
    intro st st1 h
    obtain ⟨st', h1, h2⟩ := trackLoop_cons_eq_some H rt sel next old_image new_image p l st st1 h
    have hrest := ih (fun q hq => hkey q (List.mem_cons_of_mem _ hq)) st' st1 h2
    rw [hrest]
    rcases trackMarker_cases H rt sel next old_image new_image st st' p h1 with hst | hst
    · rw [hst]
    · obtain ⟨hs, x, y, c, hst⟩ := hst
      rw [hst]
      exact MarkerInImageForTrack_Insert_other next p.track x y st.markers_ i t
        (hkey p (List.mem_cons_self _ _) hs)

/-- Two runs of the loop body on the same marker of track `t`, from states
that agree at `(next, t)`, under selections that agree on `t`, end in states
that agree at `(next, t)`. -/
theorem trackMarker_same_track (H : Int) (rt : RegionTracker) (selA selB : List Int)
    (next : Int) (old_image new_image : QImage) (marker : Marker)
    (hsel : selA.contains marker.track = selB.contains marker.track)
    (stA stB stA1 stB1 : TrackState)
    (hlook : MarkerInImageForTrack stA.markers_ next marker.track =
      MarkerInImageForTrack stB.markers_ next marker.track)
    (hA : trackMarker H rt selA next old_image new_image stA marker = some stA1)
    (hB : trackMarker H rt selB next old_image new_image stB marker = some stB1) :
    MarkerInImageForTrack stA1.markers_ next marker.track =
      MarkerInImageForTrack stB1.markers_ next marker.track := by
  obtain ⟨u, hu⟩ := trackMarker_effect H rt next old_image new_image marker
  rw [hu selA stA] at hA
  rw [hu selB stB, ← hsel] at hB
  cases hs : selA.contains marker.track with
  | false =>
    rw [hs] at hA hB
    simp only [Bool.false_eq_true, if_false, Option.some.injEq] at hA hB
    rw [← hA, ← hB]; exact hlook
  | true =>
    rw [hs] at hA hB
    simp only [if_true] at hA hB
    cases u with
    | none => exact Option.noConfusion hA
    | some e =>
      simp only [Option.map_some', Option.some.injEq] at hA hB
      cases e with
      | none =>
        simp only [applyEffect] at hA hB
        rw [← hA, ← hB]; exact hlook
      | some e =>
        obtain ⟨x, y, c⟩ := e
        simp only [applyEffect] at hA hB
        rw [← hA, ← hB]
        simp only [MarkerInImageForTrack_Insert_same]

/-- A run of the loop body on a marker of another track keeps the marker
bound to `(next, t)`. -/
theorem trackMarker_other_track (H : Int) (rt : RegionTracker) (sel : List Int)
    (next : Int) (old_image new_image : QImage) (marker : Marker) (t : Int)
    (hne : marker.track ≠ t) (st st1 : TrackState)
    (h : trackMarker H rt sel next old_image new_image st marker = some st1) :
    MarkerInImageForTrack st1.markers_ next t = MarkerInImageForTrack st.markers_ next t := by
  rcases trackMarker_cases H rt sel next old_image new_image st st1 marker h with hst | hst
  · rw [hst]
  · obtain ⟨_, x, y, c, hst⟩ := hst
    rw [hst]
    exact MarkerInImageForTrack_Insert_other next marker.track x y st.markers_ next t
      (fun hk => hne hk.2.symm)

/-- The marker bound to `(next, t)` after the loop depends on the processed
list only through its markers of track `t`. -/
theorem trackLoop_same_track (H : Int) (rt : RegionTracker) (selA selB : List Int)
    (next : Int) (old_image new_image : QImage) (t : Int)
    (hsel : selA.contains t = selB.contains t) :
    ∀ (lA lB : List Marker),
      lA.filter (fun m => decide (m.track = t)) = lB.filter (fun m => decide (m.track = t)) →
      ∀ stA stB stA1 stB1 : TrackState,
        MarkerInImageForTrack stA.markers_ next t = MarkerInImageForTrack stB.markers_ next t →
        trackLoop H rt selA next old_image new_image lA stA = some stA1 →
        trackLoop H rt selB next old_image new_image lB stB = some stB1 →
        MarkerInImageForTrack stA1.markers_ next t =
          MarkerInImageForTrack stB1.markers_ next t := by
  intro lA
  induction lA with
  | nil =>
    intro lB
    induction lB with
    | nil =>
      intro _ stA stB stA1 stB1 hlook hA hB
      simp only [trackLoop, Option.some.injEq] at hA hB
      rw [← hA, ← hB]; exact hlook
    | cons b lB ihB =>
      intro hf stA stB stA1 stB1 hlook hA hB
      obtain ⟨stB', hB1, hB2⟩ :=
        trackLoop_cons_eq_some H rt selB next old_image new_image b lB stB stB1 hB
      by_cases hb : b.track = t
      · rw [List.filter_cons_of_pos (by simpa using hb)] at hf
        simp at hf
      · rw [List.filter_cons_of_neg (by simpa using hb)] at hf
        have hstep := trackMarker_other_track H rt selB next old_image new_image b t hb
          stB stB' hB1
        exact ihB hf stA stB' stA1 stB1 (by rw [hstep]; exact hlook) hA hB2
  | cons a lA ihA =>
    intro lB hf stA stB stA1 stB1 hlook hA hB
    obtain ⟨stA', hA1, hA2⟩ :=
      trackLoop_cons_eq_some H rt selA next old_image new_image a lA stA stA1 hA
    by_cases ha : a.track = t
    · rw [List.filter_cons_of_pos (by simpa using ha)] at hf
      induction lB generalizing stB with
      | nil => simp at hf
      | cons b lB ihB =>
        obtain ⟨stB', hB1, hB2⟩ :=
          trackLoop_cons_eq_some H rt selB next old_image new_image b lB stB stB1 hB
        by_cases hb : b.track = t
        · rw [List.filter_cons_of_pos (by simpa using hb)] at hf
          injection hf with hab htail
          subst hab
          subst ha
          have hstep := trackMarker_same_track H rt selA selB next old_image new_image a hsel
            stA stB stA' stB' hlook hA1 hB1
          exact ihA lB htail stA' stB' stA1 stB1 hstep hA2 hB2
        · rw [List.filter_cons_of_neg (by simpa using hb)] at hf
          have hstep := trackMarker_other_track H rt selB next old_image new_image b t hb
            stB stB' hB1
          exact ihB hf stB' (by rw [hstep]; exact hlook) hB2
    · rw [List.filter_cons_of_neg (by simpa using ha)] at hf
      have hstep := trackMarker_other_track H rt selA next old_image new_image a t ha
        stA stA' hA1
      exact ihA lB hf stA' stB stA1 stB1 (by rw [hstep]; exact hlook) hA2 hB

theorem MarkerInImageForTrack_filter_track (ms : List Marker) (i t : Int) :
    MarkerInImageForTrack (ms.filter (fun m => decide (m.track = t))) i t =
      MarkerInImageForTrack ms i t := by
  unfold MarkerInImageForTrack
  rw [List.find?_filter]
  congr 1
  funext m
  by_cases h1 : m.track = t <;> by_cases h2 : m.image = i <;> simp [h1, h2]

theorem MarkersInImage_filter_track (ms : List Marker) (previous t : Int) :
    (MarkersInImage ms previous).filter (fun m => decide (m.track = t)) =
      MarkersInImage (ms.filter (fun m => decide (m.track = t))) previous := by
  unfold MarkersInImage
  rw [List.filter_filter, List.filter_filter]
  apply List.filter_congr
  intro m _
  exact Bool.and_comm _ _

/-- C5.  `Tracker::Track(previous, next, ...)` runs to completion and changes
the marker collection only at keys `(next, t)` with `t` a selected track that
has a marker in image `previous`: the markers bound to all other keys are the
same after the call as before (as a list, and by lookup).  The marker bound
to `(next, t)` after the call is the same for any other collection and
selection that agree on track `t`: it does not depend on the other tracks. -/
theorem Track_changes_only_selected_tracks_of_next (H : Int) (rt : RegionTracker)
    (markers_ : List Marker) (sel : List Int) (previous next : Int)
    (old_image new_image : QImage) (hold : old_image.covers) (hnew : new_image.covers) :
    ∃ st1, Track H rt markers_ sel previous next old_image new_image = some st1 ∧
      st1.markers_.filter (fun m => !mayWrite markers_ sel previous next m) =
        markers_.filter (fun m => !mayWrite markers_ sel previous next m) ∧
      (∀ i t : Int,
        ¬(i = next ∧ sel.contains t = true ∧
            ∃ m ∈ markers_, m.image = previous ∧ m.track = t) →
        MarkerInImageForTrack st1.markers_ i t = MarkerInImageForTrack markers_ i t) ∧
      (∀ (markersB : List Marker) (selB : List Int) (t : Int),
        markersB.filter (fun m => decide (m.track = t)) =
          markers_.filter (fun m => decide (m.track = t)) →
        selB.contains t = sel.contains t →
        ∃ stB, Track H rt markersB selB previous next old_image new_image = some stB ∧
          MarkerInImageForTrack stB.markers_ next t =
            MarkerInImageForTrack st1.markers_ next t) := by
  obtain ⟨st1, hrun⟩ := trackLoop_isSome H rt sel next old_image new_image hold hnew
    (MarkersInImage markers_ previous) { markers_ := markers_, calls := [] }
  refine ⟨st1, hrun, ?_, ?_, ?_⟩
  · refine trackLoop_filter H rt sel next old_image new_image _
      (MarkersInImage markers_ previous) ?_ _ st1 hrun
    intro p hp hs m hm1 hm2
    have hany : (MarkersInImage markers_ previous).any (fun q => decide (q.track = m.track))
        = true := by
      rw [List.any_eq_true]
      exact ⟨p, hp, by simpa using hm2.symm⟩
    rw [hm2] at hany
    simp only [mayWrite, hm1, hm2, hs, hany, decide_True, Bool.and_self, Bool.not_true]
  · intro i t hkey
    refine trackLoop_lookup H rt sel next old_image new_image i t
      (MarkersInImage markers_ previous) ?_ _ st1 hrun
    intro p hp hs hit
    apply hkey
    unfold MarkersInImage at hp
    rw [List.mem_filter] at hp
    refine ⟨hit.1, by rw [hit.2]; exact hs, p, hp.1, by simpa using hp.2, hit.2.symm⟩
  · intro markersB selB t hfilter hselB
    obtain ⟨stB, hrunB⟩ := trackLoop_isSome H rt selB next old_image new_image hold hnew
      (MarkersInImage markersB previous) { markers_ := markersB, calls := [] }
    refine ⟨stB, hrunB, ?_⟩
    refine trackLoop_same_track H rt selB sel next old_image new_image t hselB
      (MarkersInImage markersB previous) (MarkersInImage markers_ previous) ?_
      { markers_ := markersB, calls := [] } { markers_ := markers_, calls := [] } stB st1 ?_
      hrunB hrun
    · rw [MarkersInImage_filter_track, MarkersInImage_filter_track, hfilter]
    · show MarkerInImageForTrack markersB next t = MarkerInImageForTrack markers_ next t
      rw [← MarkerInImageForTrack_filter_track markersB, ← MarkerInImageForTrack_filter_track
        markers_, hfilter]

/-- Instance of C5: tracking from image 0 to image 1 on `frame6` with tracks
1 and 2 selected leaves the marker of track 3 in image 1 as it is. -/
theorem Track_changes_only_selected_tracks_of_next_witness :
    ∃ st1,
      Track 1 shiftTracker
        [{ image := 0, track := 1, x := 5 / 2, y := 2 },
         { image := 0, track := 2, x := 4, y := 4 },
         { image := 0, track := 3, x := 2, y := 2 },
         { image := 1, track := 3, x := 0, y := 0 }]
        [1, 2] 0 1 frame6 frame6 = some st1 ∧
      MarkerInImageForTrack st1.markers_ 1 3 =
        MarkerInImageForTrack
          [{ image := 0, track := 1, x := 5 / 2, y := 2 },
           { image := 0, track := 2, x := 4, y := 4 },
           { image := 0, track := 3, x := 2, y := 2 },
           { image := 1, track := 3, x := 0, y := 0 }] 1 3 := by
  obtain ⟨st1, h1, _, h3, _⟩ :=
    Track_changes_only_selected_tracks_of_next 1 shiftTracker
      [{ image := 0, track := 1, x := 5 / 2, y := 2 },
       { image := 0, track := 2, x := 4, y := 4 },
       { image := 0, track := 3, x := 2, y := 2 },
       { image := 1, track := 3, x := 0, y := 0 }]
      [1, 2] 0 1 frame6 frame6 frame6_covers frame6_covers
  exact ⟨st1, h1, h3 1 3 (by decide)⟩

/-! ## Tracker::Track: what the whole loop stores and logs -/

theorem trackMarker_of_copied_eq (H : Int) (rt : RegionTracker) (sel : List Int) (next : Int)
    (old_image new_image : QImage) (st : TrackState) (marker : Marker)
    (old_patch new_patch : FloatImage)
    (hsel : sel.contains marker.track = true)
    (hold : CopyRegionFromQImage old_image (H * 2 + 1) (H * 2 + 1)
        (truncToInt (marker.x - (H : ℚ))) (truncToInt (marker.y - (H : ℚ)))
      = CopyOutcome.copied old_patch)
    (hnew : CopyRegionFromQImage new_image (H * 2 + 1) (H * 2 + 1)
        (truncToInt (marker.x - (H : ℚ))) (truncToInt (marker.y - (H : ℚ)))
      = CopyOutcome.copied new_patch) :
    trackMarker H rt sel next old_image new_image st marker =
      some
        { markers_ :=
            Insert next marker.track (storedMarker H rt next marker old_patch new_patch).x
              (storedMarker H rt next marker old_patch new_patch).y st.markers_,
          calls := st.calls ++ [startCall H marker old_patch new_patch] } :=
  trackMarker_of_copied H rt sel next old_image new_image st marker old_patch new_patch
    hsel hold hnew

/-- The last step of the loop. -/
theorem trackLoop_concat_eq_some (H : Int) (rt : RegionTracker) (sel : List Int) (next : Int)
    (old_image new_image : QImage) (l : List Marker) (p : Marker) (st st1 : TrackState)
    (h : trackLoop H rt sel next old_image new_image (l ++ [p]) st = some st1) :
    ∃ st', trackLoop H rt sel next old_image new_image l st = some st' ∧
      trackMarker H rt sel next old_image new_image st' p = some st1 := by
  rw [trackLoop_append] at h
  cases hl : trackLoop H rt sel next old_image new_image l st with
  | none => rw [hl] at h; exact Option.noConfusion h
  | some st' =>
    rw [hl, Option.some_bind] at h
    obtain ⟨st'', h1, h2⟩ :=
      trackLoop_cons_eq_some H rt sel next old_image new_image p [] st' st1 h
    simp only [trackLoop, Option.some.injEq] at h2
    subst h2
    exact ⟨st', rfl, h1⟩

/-- After the loop, the key `(next, m.track)` of every selected marker `m` of
the list whose two patches are extracted is bound to the marker stored for
some such marker of the same track. -/
theorem trackLoop_binds (H : Int) (rt : RegionTracker) (sel : List Int) (next : Int)
    (old_image new_image : QImage) (hold : old_image.covers) (hnew : new_image.covers)
    (l : List Marker) :
    ∀ st st1, trackLoop H rt sel next old_image new_image l st = some st1 →
      ∀ m ∈ l, sel.contains m.track = true →
      ∀ op np,
        CopyRegionFromQImage old_image (H * 2 + 1) (H * 2 + 1)
          (truncToInt (m.x - (H : ℚ))) (truncToInt (m.y - (H : ℚ))) = CopyOutcome.copied op →
        CopyRegionFromQImage new_image (H * 2 + 1) (H * 2 + 1)
          (truncToInt (m.x - (H : ℚ))) (truncToInt (m.y - (H : ℚ))) = CopyOutcome.copied np →
        ∃ m' ∈ l, m'.track = m.track ∧ ∃ op' np',
          CopyRegionFromQImage old_image (H * 2 + 1) (H * 2 + 1)
            (truncToInt (m'.x - (H : ℚ))) (truncToInt (m'.y - (H : ℚ)))
            = CopyOutcome.copied op' ∧
          CopyRegionFromQImage new_image (H * 2 + 1) (H * 2 + 1)
            (truncToInt (m'.x - (H : ℚ))) (truncToInt (m'.y - (H : ℚ)))
            = CopyOutcome.copied np' ∧
          MarkerInImageForTrack st1.markers_ next m.track =
            some (storedMarker H rt next m' op' np') := by
  induction l using List.reverseRecOn with
  | nil => intro st st1 _ m hm; exact absurd hm (List.not_mem_nil m)
  | append_singleton l p ih =>
    intro st st1 h m hm hs op np ho hn
    obtain ⟨st', hl, hp⟩ :=
      trackLoop_concat_eq_some H rt sel next old_image new_image l p st st1 h
    have hrest : m ∈ l → MarkerInImageForTrack st1.markers_ next m.track =
        MarkerInImageForTrack st'.markers_ next m.track →
        ∃ m' ∈ l ++ [p], m'.track = m.track ∧ ∃ op' np',
          CopyRegionFromQImage old_image (H * 2 + 1) (H * 2 + 1)
            (truncToInt (m'.x - (H : ℚ))) (truncToInt (m'.y - (H : ℚ)))
            = CopyOutcome.copied op' ∧
          CopyRegionFromQImage new_image (H * 2 + 1) (H * 2 + 1)
            (truncToInt (m'.x - (H : ℚ))) (truncToInt (m'.y - (H : ℚ)))
            = CopyOutcome.copied np' ∧
          MarkerInImageForTrack st1.markers_ next m.track =
            some (storedMarker H rt next m' op' np') := by
      intro hml hsame
      obtain ⟨m', hm', ht, op', np', h1, h2, h3⟩ := ih st st' hl m hml hs op np ho hn
      exact ⟨m', List.mem_append_left _ hm', ht, op', np', h1, h2, by rw [hsame]; exact h3⟩
    have hcases : m ∈ l ∨ m = p := by
      rcases List.mem_append.mp hm with h1 | h1
      · exact Or.inl h1
      · exact Or.inr (List.mem_singleton.mp h1)
    by_cases hpt : p.track = m.track
    · have hps : sel.contains p.track = true := by rw [hpt]; exact hs
      cases h1 : CopyRegionFromQImage old_image (H * 2 + 1) (H * 2 + 1)
          (truncToInt (p.x - (H : ℚ))) (truncToInt (p.y - (H : ℚ))) with
      | badRead => exact absurd h1 (CopyRegionFromQImage_ne_badRead hold _ _ _ _)
      | rejected =>
        have hst := trackMarker_of_rejected H rt sel next old_image new_image hold p
          (Or.inl h1) st'
        rw [hst, Option.some.injEq] at hp
        rcases hcases with hml | hmp
        · exact hrest hml (by rw [hp])
        · subst hmp; rw [h1] at ho; exact CopyOutcome.noConfusion ho
      | copied op' =>
        cases h2 : CopyRegionFromQImage new_image (H * 2 + 1) (H * 2 + 1)
            (truncToInt (p.x - (H : ℚ))) (truncToInt (p.y - (H : ℚ))) with
        | badRead => exact absurd h2 (CopyRegionFromQImage_ne_badRead hnew _ _ _ _)
        | rejected =>
          have hst := trackMarker_of_rejected H rt sel next old_image new_image hold p
            (Or.inr h2) st'
          rw [hst, Option.some.injEq] at hp
          rcases hcases with hml | hmp
          · exact hrest hml (by rw [hp])
          · subst hmp; rw [h2] at hn; exact CopyOutcome.noConfusion hn
        | copied np' =>
          have hst := trackMarker_of_copied_eq H rt sel next old_image new_image st' p
            op' np' hps h1 h2
          rw [hst, Option.some.injEq] at hp
          refine ⟨p, List.mem_append_right _ (List.mem_singleton_self p), hpt, op', np',
            h1, h2, ?_⟩
          rw [← hp, ← hpt]
          exact MarkerInImageForTrack_Insert_same _ _ _ _ _
    · have hstep := trackMarker_other_track H rt sel next old_image new_image p m.track hpt
        st' st1 hp
      rcases hcases with hml | hmp
      · exact hrest hml hstep
      · exact absurd (by rw [hmp]) hpt

/-- What one loop iteration does to the log of region-tracker calls. -/
theorem trackMarker_calls (H : Int) (rt : RegionTracker) (sel : List Int) (next : Int)
    (old_image new_image : QImage) (st st1 : TrackState) (marker : Marker)
    (h : trackMarker H rt sel next old_image new_image st marker = some st1) :
    st1.calls = st.calls ∨
      (sel.contains marker.track = true ∧ ∃ op np,
        CopyRegionFromQImage old_image (H * 2 + 1) (H * 2 + 1)
          (truncToInt (marker.x - (H : ℚ))) (truncToInt (marker.y - (H : ℚ)))
          = CopyOutcome.copied op ∧
        CopyRegionFromQImage new_image (H * 2 + 1) (H * 2 + 1)
          (truncToInt (marker.x - (H : ℚ))) (truncToInt (marker.y - (H : ℚ)))
          = CopyOutcome.copied np ∧
        st1.calls = st.calls ++ [startCall H marker op np]) := by
  cases hs : sel.contains marker.track with
  | false =>
    unfold trackMarker at h
    simp only [hs, Bool.not_false, if_true, Option.some.injEq] at h
    exact Or.inl (by rw [← h])
  | true =>
    cases h1 : CopyRegionFromQImage old_image (H * 2 + 1) (H * 2 + 1)
        (truncToInt (marker.x - (H : ℚ))) (truncToInt (marker.y - (H : ℚ))) with
    | badRead =>
      unfold trackMarker at h
      simp only [hs, h1, Bool.not_true, Bool.false_eq_true, if_false] at h
      exact Option.noConfusion h
    | rejected =>
      unfold trackMarker at h
      simp only [hs, h1, Bool.not_true, Bool.false_eq_true, if_false, Option.some.injEq] at h
      exact Or.inl (by rw [← h])
    | copied op =>
      cases h2 : CopyRegionFromQImage new_image (H * 2 + 1) (H * 2 + 1)
          (truncToInt (marker.x - (H : ℚ))) (truncToInt (marker.y - (H : ℚ))) with
      | badRead =>
        unfold trackMarker at h
        simp only [hs, h1, h2, Bool.not_true, Bool.false_eq_true, if_false] at h
        exact Option.noConfusion h
      | rejected =>
        unfold trackMarker at h
        simp only [hs, h1, h2, Bool.not_true, Bool.false_eq_true, if_false,
          Option.some.injEq] at h
        exact Or.inl (by rw [← h])
      | copied np =>
        rw [trackMarker_of_copied_eq H rt sel next old_image new_image st marker op np hs h1 h2,
          Option.some.injEq] at h
        exact Or.inr ⟨rfl, op, np, rfl, rfl, by rw [← h]⟩

/-- Every call in the log after the loop was in the log before it, or is the
call made for a selected marker of the list whose two patches are extracted. -/
theorem trackLoop_calls_sound (H : Int) (rt : RegionTracker) (sel : List Int) (next : Int)
    (old_image new_image : QImage) (l : List Marker) :
    ∀ st st1, trackLoop H rt sel next old_image new_image l st = some st1 →
      ∀ c ∈ st1.calls, c ∈ st.calls ∨ ∃ m ∈ l, sel.contains m.track = true ∧ ∃ op np,
        CopyRegionFromQImage old_image (H * 2 + 1) (H * 2 + 1)
          (truncToInt (m.x - (H : ℚ))) (truncToInt (m.y - (H : ℚ))) = CopyOutcome.copied op ∧
        CopyRegionFromQImage new_image (H * 2 + 1) (H * 2 + 1)
          (truncToInt (m.x - (H : ℚ))) (truncToInt (m.y - (H : ℚ))) = CopyOutcome.copied np ∧
        c = startCall H m op np := by
  induction l with
  | nil =>
    intro st st1 h c hc
    simp only [trackLoop, Option.some.injEq] at h
    rw [← h] at hc
    exact Or.inl hc
  | cons p l ih =>
    intro st st1 h c hc
    obtain ⟨st', h1, h2⟩ := trackLoop_cons_eq_some H rt sel next old_image new_image p l st st1 h
    rcases ih st' st1 h2 c hc with hin | ⟨m, hm, hrest⟩
    · rcases trackMarker_calls H rt sel next old_image new_image st st' p h1 with hst | hst
      · rw [hst] at hin; exact Or.inl hin
      · obtain ⟨hs, op, np, ho, hn, hst⟩ := hst
        rw [hst, List.mem_append, List.mem_singleton] at hin
        rcases hin with hin | hin
        · exact Or.inl hin
        · exact Or.inr ⟨p, List.mem_cons_self _ _, hs, op, np, ho, hn, hin⟩
    · exact Or.inr ⟨m, List.mem_cons_of_mem _ hm, hrest⟩

/-- The loop keeps the calls already logged and logs the call of every
selected marker of the list whose two patches are extracted. -/
theorem trackLoop_calls_complete (H : Int) (rt : RegionTracker) (sel : List Int) (next : Int)
    (old_image new_image : QImage) (l : List Marker) :
    ∀ st st1, trackLoop H rt sel next old_image new_image l st = some st1 →
      (∀ c ∈ st.calls, c ∈ st1.calls) ∧
      (∀ m ∈ l, sel.contains m.track = true → ∀ op np,
        CopyRegionFromQImage old_image (H * 2 + 1) (H * 2 + 1)
          (truncToInt (m.x - (H : ℚ))) (truncToInt (m.y - (H : ℚ))) = CopyOutcome.copied op →
        CopyRegionFromQImage new_image (H * 2 + 1) (H * 2 + 1)
          (truncToInt (m.x - (H : ℚ))) (truncToInt (m.y - (H : ℚ))) = CopyOutcome.copied np →
        startCall H m op np ∈ st1.calls) := by
  induction l with
  | nil =>
    intro st st1 h
    simp only [trackLoop, Option.some.injEq] at h
    rw [← h]
    exact ⟨fun _ hc => hc, fun m hm => absurd hm (List.not_mem_nil m)⟩
  | cons p l ih =>
    intro st st1 h
    obtain ⟨st', h1, h2⟩ := trackLoop_cons_eq_some H rt sel next old_image new_image p l st st1 h
    obtain ⟨hkeep, hlog⟩ := ih st' st1 h2
    have hstep : ∀ c ∈ st.calls, c ∈ st'.calls := by
      intro c hc
      rcases trackMarker_calls H rt sel next old_image new_image st st' p h1 with hst | hst
      · rw [hst]; exact hc
      · obtain ⟨_, op, np, _, _, hst⟩ := hst
        rw [hst]; exact List.mem_append_left _ hc
    refine ⟨fun c hc => hkeep c (hstep c hc), ?_⟩
    intro m hm hs op np ho hn
    rcases List.mem_cons.mp hm with hmp | hml
    · subst hmp
      apply hkeep
      rw [trackMarker_of_copied_eq H rt sel next old_image new_image st m op np hs ho hn,
        Option.some.injEq] at h1
      rw [← h1]
      exact List.mem_append_right _ (List.mem_singleton_self _)
    · exact hlog m hml hs op np ho hn

/-- The start position of `startCall` is less than one pixel from `(H, H)`. -/
theorem startCall_near_centre (H : Int) (marker : Marker) (op np : FloatImage) :
    ((H : ℚ) - 1 < (startCall H marker op np).x1 ∧
      (startCall H marker op np).x1 < (H : ℚ) + 1) ∧
    ((H : ℚ) - 1 < (startCall H marker op np).y1 ∧
      (startCall H marker op np).y1 < (H : ℚ) + 1) := by
  have hx := truncToInt_error (marker.x - (H : ℚ))
  have hy := truncToInt_error (marker.y - (H : ℚ))
  simp only [startCall]
  exact ⟨⟨by linarith, by linarith⟩, ⟨by linarith, by linarith⟩⟩

/-- C8.  `Tracker::Track` ignores the Boolean returned by the region tracker.
Two region trackers that write the same output positions give the same
result whatever they return.  On images whose buffers cover their
dimensions the call completes, and afterwards every selected marker of
`previous` whose patch is extracted from both images has `(next, marker.track)`
bound, to the translated output of the region tracker for such a marker of
that track, with any region tracker, so also with one that reports failure.
The loop body alone already stores the marker. -/
theorem Track_ignores_success_flag (H : Int) (rt1 rt2 : RegionTracker)
    (hpos : ∀ c, (rt1 c).x2 = (rt2 c).x2 ∧ (rt1 c).y2 = (rt2 c).y2) :
    (∀ markers_ sel previous next old_image new_image,
      Track H rt1 markers_ sel previous next old_image new_image =
        Track H rt2 markers_ sel previous next old_image new_image) ∧
    (∀ markers_ sel previous next (old_image new_image : QImage),
      old_image.covers → new_image.covers →
      ∃ st1, Track H rt1 markers_ sel previous next old_image new_image = some st1 ∧
        Track H rt2 markers_ sel previous next old_image new_image = some st1 ∧
        ∀ m ∈ MarkersInImage markers_ previous, sel.contains m.track = true →
        ∀ op np,
          CopyRegionFromQImage old_image (H * 2 + 1) (H * 2 + 1)
            (truncToInt (m.x - (H : ℚ))) (truncToInt (m.y - (H : ℚ)))
            = CopyOutcome.copied op →
          CopyRegionFromQImage new_image (H * 2 + 1) (H * 2 + 1)
            (truncToInt (m.x - (H : ℚ))) (truncToInt (m.y - (H : ℚ)))
            = CopyOutcome.copied np →
          (MarkerInImageForTrack st1.markers_ next m.track).isSome = true ∧
          ∃ m' ∈ MarkersInImage markers_ previous, m'.track = m.track ∧ ∃ op' np',
            CopyRegionFromQImage old_image (H * 2 + 1) (H * 2 + 1)
              (truncToInt (m'.x - (H : ℚ))) (truncToInt (m'.y - (H : ℚ)))
              = CopyOutcome.copied op' ∧
            CopyRegionFromQImage new_image (H * 2 + 1) (H * 2 + 1)
              (truncToInt (m'.x - (H : ℚ))) (truncToInt (m'.y - (H : ℚ)))
              = CopyOutcome.copied np' ∧
            MarkerInImageForTrack st1.markers_ next m.track =
              some (storedMarker H rt1 next m' op' np') ∧
            storedMarker H rt1 next m' op' np' = storedMarker H rt2 next m' op' np') ∧
    (∀ sel next old_image new_image st marker old_patch new_patch,
      sel.contains marker.track = true →
      CopyRegionFromQImage old_image (H * 2 + 1) (H * 2 + 1)
          (truncToInt (marker.x - (H : ℚ))) (truncToInt (marker.y - (H : ℚ)))
        = CopyOutcome.copied old_patch →
      CopyRegionFromQImage new_image (H * 2 + 1) (H * 2 + 1)
          (truncToInt (marker.x - (H : ℚ))) (truncToInt (marker.y - (H : ℚ)))
        = CopyOutcome.copied new_patch →
      ∃ st1, trackMarker H rt1 sel next old_image new_image st marker = some st1 ∧
        trackMarker H rt2 sel next old_image new_image st marker = some st1 ∧
        (MarkerInImageForTrack st1.markers_ next marker.track).isSome = true) := by
  have hTrack : ∀ markers_ sel previous next old_image new_image,
      Track H rt1 markers_ sel previous next old_image new_image =
        Track H rt2 markers_ sel previous next old_image new_image := by
    intro markers_ sel previous next old_image new_image
    unfold Track
    exact trackLoop_congr H rt1 rt2 hpos sel next old_image new_image _ _
  refine ⟨hTrack, ?_, ?_⟩
  · intro markers_ sel previous next old_image new_image hold hnew
    obtain ⟨st1, hrun⟩ := trackLoop_isSome H rt1 sel next old_image new_image hold hnew
      (MarkersInImage markers_ previous) { markers_ := markers_, calls := [] }
    have hrun1 : Track H rt1 markers_ sel previous next old_image new_image = some st1 := hrun
    refine ⟨st1, hrun1, by rw [← hTrack]; exact hrun1, ?_⟩
    intro m hm hs op np ho hn
    obtain ⟨m', hm', ht, op', np', h1, h2, h3⟩ :=
      trackLoop_binds H rt1 sel next old_image new_image hold hnew
        (MarkersInImage markers_ previous) _ st1 hrun m hm hs op np ho hn
    refine ⟨by rw [h3]; rfl, m', hm', ht, op', np', h1, h2, h3, ?_⟩
    simp only [storedMarker, (hpos _).1, (hpos _).2]
  · intro sel next old_image new_image st marker old_patch new_patch hsel hold hnew
    have hbody : ∀ rt : RegionTracker,
        trackMarker H rt sel next old_image new_image st marker =
          some
            { markers_ :=
                Insert next marker.track
                  (storedMarker H rt next marker old_patch new_patch).x
                  (storedMarker H rt next marker old_patch new_patch).y st.markers_,
              calls := st.calls ++ [startCall H marker old_patch new_patch] } := by
      intro rt
      unfold trackMarker
      simp only [hsel, hold, hnew, Bool.not_true, Bool.false_eq_true, if_false, storedMarker,
        startCall]
    have hsame : storedMarker H rt2 next marker old_patch new_patch =
        storedMarker H rt1 next marker old_patch new_patch := by
      simp only [storedMarker, (hpos _).1, (hpos _).2]
    refine ⟨_, hbody rt1, ?_, ?_⟩
    · rw [hbody rt2, hsame]
    · simp only [MarkerInImageForTrack_Insert_same, Option.isSome_some]

/-- Instance of C8: `idleTracker` reports failure, its copy reports success;
tracking the marker of track 2 at (5/2, 2) from image 0 to image 1 on
`frame6` ends with both in the state evaluated here, in which `(1, 2)` is
bound. -/
theorem Track_ignores_success_flag_witness :
    Track 1 idleTracker [{ image := 0, track := 2, x := 5 / 2, y := 2 }] [2] 0 1
        frame6 frame6 =
      some { markers_ := [{ image := 0, track := 2, x := 5 / 2, y := 2 },
                          { image := 1, track := 2, x := 5 / 2, y := 2 }],
             calls := [{ old_patch := patch6, new_patch := patch6,
                         x1 := 3 / 2, y1 := 1, x2 := 3 / 2, y2 := 1 }] } ∧
    Track 1 (fun call => { succeeded := true, x2 := call.x2, y2 := call.y2 })
        [{ image := 0, track := 2, x := 5 / 2, y := 2 }] [2] 0 1 frame6 frame6 =
      some { markers_ := [{ image := 0, track := 2, x := 5 / 2, y := 2 },
                          { image := 1, track := 2, x := 5 / 2, y := 2 }],
             calls := [{ old_patch := patch6, new_patch := patch6,
                         x1 := 3 / 2, y1 := 1, x2 := 3 / 2, y2 := 1 }] } ∧
    (MarkerInImageForTrack
      [{ image := 0, track := 2, x := 5 / 2, y := 2 },
       { image := 1, track := 2, x := 5 / 2, y := 2 }] 1 2).isSome = true := by
  have heval : Track 1 idleTracker [{ image := 0, track := 2, x := 5 / 2, y := 2 }] [2] 0 1
        frame6 frame6 =
      some { markers_ := [{ image := 0, track := 2, x := 5 / 2, y := 2 },
                          { image := 1, track := 2, x := 5 / 2, y := 2 }],
             calls := [{ old_patch := patch6, new_patch := patch6,
                         x1 := 3 / 2, y1 := 1, x2 := 3 / 2, y2 := 1 }] } := by
    have hc : CopyRegionFromQImage frame6 3 3 1 1 = CopyOutcome.copied patch6 := by
      simpa using frame6_patch
    have hsel : ([2] : List Int).contains 2 = true := by decide
    simp only [Track, MarkersInImage, List.filter, decide_True, trackLoop, trackMarker, hsel,
      Bool.not_true, Bool.false_eq_true, if_false, truncToInt_five_halves_sub_one,
      truncToInt_two_sub_one, idleTracker]
    norm_num [hc, Insert]
  have hcopy : CopyRegionFromQImage frame6 (1 * 2 + 1) (1 * 2 + 1)
      (truncToInt ((5 / 2 : ℚ) - ((1 : Int) : ℚ))) (truncToInt ((2 : ℚ) - ((1 : Int) : ℚ)))
      = CopyOutcome.copied patch6 := by
    rw [truncToInt_five_halves_sub_one, truncToInt_two_sub_one]
    exact frame6_patch
  obtain ⟨st1, h1, h2, h3⟩ :=
    (Track_ignores_success_flag 1 idleTracker
      (fun call => { succeeded := true, x2 := call.x2, y2 := call.y2 })
      (fun _ => ⟨rfl, rfl⟩)).2.1
      [{ image := 0, track := 2, x := 5 / 2, y := 2 }] [2] 0 1 frame6 frame6
      frame6_covers frame6_covers
  have hst : st1 = { markers_ := [{ image := 0, track := 2, x := 5 / 2, y := 2 },
                                  { image := 1, track := 2, x := 5 / 2, y := 2 }],
                     calls := [{ old_patch := patch6, new_patch := patch6,
                                 x1 := 3 / 2, y1 := 1, x2 := 3 / 2, y2 := 1 }] } := by
    rw [heval, Option.some.injEq] at h1
    exact h1.symm
  subst hst
  exact ⟨h1, h2,
    (h3 { image := 0, track := 2, x := 5 / 2, y := 2 } (by simp [MarkersInImage])
      (by decide) patch6 patch6 hcopy hcopy).1⟩

/-- C9.  In `Tracker::Track` with `H = kHalfSearchWindowSize ≥ 1` (exact
arithmetic, conversion to `int` truncating toward zero).  When the patch of
a marker is extracted, its offset `(x0, y0)` is non-negative and
`(marker.x - x0, marker.y - y0)` is less than one pixel from the patch centre
`(H, H)` in each coordinate, hence inside the `(2H+1) x (2H+1)` patch.  For
a selected marker extracted from both images the loop body calls the region
tracker exactly with that start position and stores the translated output of
that call.  After `Tracker::Track` every logged call of the region tracker
has such a start position, and the call of every selected, extracted marker
of `previous` is in the log. -/
theorem Track_start_position_near_patch_centre (H : Int) (hH : 1 ≤ H) :
    (∀ (image : QImage) (marker : Marker) (patch : FloatImage),
      CopyRegionFromQImage image (H * 2 + 1) (H * 2 + 1)
          (truncToInt (marker.x - (H : ℚ))) (truncToInt (marker.y - (H : ℚ)))
        = CopyOutcome.copied patch →
      (0 ≤ truncToInt (marker.x - (H : ℚ)) ∧ 0 ≤ truncToInt (marker.y - (H : ℚ))) ∧
      ((H : ℚ) - 1 < marker.x - (truncToInt (marker.x - (H : ℚ)) : ℚ) ∧
        marker.x - (truncToInt (marker.x - (H : ℚ)) : ℚ) < (H : ℚ) + 1) ∧
      ((H : ℚ) - 1 < marker.y - (truncToInt (marker.y - (H : ℚ)) : ℚ) ∧
        marker.y - (truncToInt (marker.y - (H : ℚ)) : ℚ) < (H : ℚ) + 1) ∧
      (0 ≤ marker.x - (truncToInt (marker.x - (H : ℚ)) : ℚ) ∧
        marker.x - (truncToInt (marker.x - (H : ℚ)) : ℚ) ≤ 2 * (H : ℚ)) ∧
      (0 ≤ marker.y - (truncToInt (marker.y - (H : ℚ)) : ℚ) ∧
        marker.y - (truncToInt (marker.y - (H : ℚ)) : ℚ) ≤ 2 * (H : ℚ))) ∧
    (∀ (rt : RegionTracker) (sel : List Int) (next : Int) (old_image new_image : QImage)
        (st : TrackState) (marker : Marker) (op np : FloatImage),
      sel.contains marker.track = true →
      CopyRegionFromQImage old_image (H * 2 + 1) (H * 2 + 1)
          (truncToInt (marker.x - (H : ℚ))) (truncToInt (marker.y - (H : ℚ)))
        = CopyOutcome.copied op →
      CopyRegionFromQImage new_image (H * 2 + 1) (H * 2 + 1)
          (truncToInt (marker.x - (H : ℚ))) (truncToInt (marker.y - (H : ℚ)))
        = CopyOutcome.copied np →
      ∃ st1 call, trackMarker H rt sel next old_image new_image st marker = some st1 ∧
        st1.calls = st.calls ++ [call] ∧
        st1.markers_ =
          Insert next marker.track
            ((truncToInt (marker.x - (H : ℚ)) : ℚ) + (rt call).x2)
            ((truncToInt (marker.y - (H : ℚ)) : ℚ) + (rt call).y2) st.markers_ ∧
        call.old_patch = op ∧ call.new_patch = np ∧
        call.x1 = marker.x - (truncToInt (marker.x - (H : ℚ)) : ℚ) ∧
        call.y1 = marker.y - (truncToInt (marker.y - (H : ℚ)) : ℚ) ∧
        ((H : ℚ) - 1 < call.x1 ∧ call.x1 < (H : ℚ) + 1) ∧
        ((H : ℚ) - 1 < call.y1 ∧ call.y1 < (H : ℚ) + 1) ∧
        (0 ≤ call.x1 ∧ call.x1 ≤ 2 * (H : ℚ)) ∧
        (0 ≤ call.y1 ∧ call.y1 ≤ 2 * (H : ℚ))) ∧
    (∀ (rt : RegionTracker) (markers_ : List Marker) (sel : List Int) (previous next : Int)
        (old_image new_image : QImage) (st1 : TrackState),
      Track H rt markers_ sel previous next old_image new_image = some st1 →
      (∀ c ∈ st1.calls,
        ((H : ℚ) - 1 < c.x1 ∧ c.x1 < (H : ℚ) + 1) ∧
        ((H : ℚ) - 1 < c.y1 ∧ c.y1 < (H : ℚ) + 1) ∧
        (0 ≤ c.x1 ∧ c.x1 ≤ 2 * (H : ℚ)) ∧
        (0 ≤ c.y1 ∧ c.y1 ≤ 2 * (H : ℚ))) ∧
      (∀ m ∈ MarkersInImage markers_ previous, sel.contains m.track = true →
        ∀ op np,
          CopyRegionFromQImage old_image (H * 2 + 1) (H * 2 + 1)
            (truncToInt (m.x - (H : ℚ))) (truncToInt (m.y - (H : ℚ)))
            = CopyOutcome.copied op →
          CopyRegionFromQImage new_image (H * 2 + 1) (H * 2 + 1)
            (truncToInt (m.x - (H : ℚ))) (truncToInt (m.y - (H : ℚ)))
            = CopyOutcome.copied np →
          ∃ c ∈ st1.calls, c.old_patch = op ∧ c.new_patch = np ∧
            c.x1 = m.x - (truncToInt (m.x - (H : ℚ)) : ℚ) ∧
            c.y1 = m.y - (truncToInt (m.y - (H : ℚ)) : ℚ))) := by
  have hHq : (1 : ℚ) ≤ (H : ℚ) := by exact_mod_cast hH
  have hnear : ∀ (marker : Marker) (op np : FloatImage),
      ((H : ℚ) - 1 < (startCall H marker op np).x1 ∧
        (startCall H marker op np).x1 < (H : ℚ) + 1) ∧
      ((H : ℚ) - 1 < (startCall H marker op np).y1 ∧
        (startCall H marker op np).y1 < (H : ℚ) + 1) ∧
      (0 ≤ (startCall H marker op np).x1 ∧ (startCall H marker op np).x1 ≤ 2 * (H : ℚ)) ∧
      (0 ≤ (startCall H marker op np).y1 ∧ (startCall H marker op np).y1 ≤ 2 * (H : ℚ)) := by
    intro marker op np
    obtain ⟨⟨hx1, hx2⟩, ⟨hy1, hy2⟩⟩ := startCall_near_centre H marker op np
    exact ⟨⟨hx1, hx2⟩, ⟨hy1, hy2⟩, ⟨by linarith, by linarith⟩, ⟨by linarith, by linarith⟩⟩
  refine ⟨?_, ?_, ?_⟩
  · intro image marker patch hext
    have hx := truncToInt_error (marker.x - (H : ℚ))
    have hy := truncToInt_error (marker.y - (H : ℚ))
    have hnr : CopyRegionFromQImage image (H * 2 + 1) (H * 2 + 1)
        (truncToInt (marker.x - (H : ℚ))) (truncToInt (marker.y - (H : ℚ)))
        ≠ CopyOutcome.rejected := by
      rw [hext]; exact fun h => CopyOutcome.noConfusion h
    rw [Ne, CopyRegionFromQImage_rejected_iff] at hnr
    push_neg at hnr
    exact ⟨⟨hnr.1, hnr.2.1⟩, ⟨by linarith, by linarith⟩, ⟨by linarith, by linarith⟩,
      ⟨by linarith, by linarith⟩, ⟨by linarith, by linarith⟩⟩
  · intro rt sel next old_image new_image st marker op np hs ho hn
    obtain ⟨h1, h2, h3, h4⟩ := hnear marker op np
    have hbody : trackMarker H rt sel next old_image new_image st marker =
        some
          { markers_ :=
              Insert next marker.track
                ((truncToInt (marker.x - (H : ℚ)) : ℚ) + (rt (startCall H marker op np)).x2)
                ((truncToInt (marker.y - (H : ℚ)) : ℚ) + (rt (startCall H marker op np)).y2)
                st.markers_,
            calls := st.calls ++ [startCall H marker op np] } := by
      unfold trackMarker
      simp only [hs, ho, hn, Bool.not_true, Bool.false_eq_true, if_false, startCall]
    exact ⟨_, startCall H marker op np, hbody, rfl, rfl, rfl, rfl, rfl, rfl, h1, h2, h3, h4⟩
  · intro rt markers_ sel previous next old_image new_image st1 hrun
    have hrun1 : trackLoop H rt sel next old_image new_image (MarkersInImage markers_ previous)
        { markers_ := markers_, calls := [] } = some st1 := hrun
    constructor
    · intro c hc
      rcases trackLoop_calls_sound H rt sel next old_image new_image _ _ st1 hrun1 c hc
        with hin | ⟨m, _, _, op, np, _, _, hceq⟩
      · exact absurd hin (List.not_mem_nil c)
      · rw [hceq]; exact hnear m op np
    · intro m hm hs op np ho hn
      exact ⟨startCall H m op np,
        (trackLoop_calls_complete H rt sel next old_image new_image _ _ st1 hrun1).2
          m hm hs op np ho hn, rfl, rfl, rfl, rfl⟩

/-- Instance of C9: half window 1 on `frame6`, the marker of track 2 at
(5/2, 2) tracked by `shiftTracker` from image 0 to image 1: the call ends in
the state evaluated here, whose one logged call starts at (3/2, 1), and the
start of every logged call is less than one pixel from (1, 1). -/
theorem Track_start_position_near_patch_centre_witness :
    Track 1 shiftTracker [{ image := 0, track := 2, x := 5 / 2, y := 2 }] [2] 0 1
        frame6 frame6 =
      some { markers_ := [{ image := 0, track := 2, x := 5 / 2, y := 2 },
                          { image := 1, track := 2, x := 3, y := 7 / 4 }],
             calls := [{ old_patch := patch6, new_patch := patch6,
                         x1 := 3 / 2, y1 := 1, x2 := 3 / 2, y2 := 1 }] } ∧
    (∀ c ∈ [({ old_patch := patch6, new_patch := patch6,
               x1 := 3 / 2, y1 := 1, x2 := 3 / 2, y2 := 1 } : TrackerCall)],
      ((((1 : Int) : ℚ) - 1 < c.x1 ∧ c.x1 < ((1 : Int) : ℚ) + 1) ∧
       (((1 : Int) : ℚ) - 1 < c.y1 ∧ c.y1 < ((1 : Int) : ℚ) + 1) ∧
       (0 ≤ c.x1 ∧ c.x1 ≤ 2 * ((1 : Int) : ℚ)) ∧
       (0 ≤ c.y1 ∧ c.y1 ≤ 2 * ((1 : Int) : ℚ)))) := by
  have heval : Track 1 shiftTracker [{ image := 0, track := 2, x := 5 / 2, y := 2 }] [2] 0 1
        frame6 frame6 =
      some { markers_ := [{ image := 0, track := 2, x := 5 / 2, y := 2 },
                          { image := 1, track := 2, x := 3, y := 7 / 4 }],
             calls := [{ old_patch := patch6, new_patch := patch6,
                         x1 := 3 / 2, y1 := 1, x2 := 3 / 2, y2 := 1 }] } := by
    have hc : CopyRegionFromQImage frame6 3 3 1 1 = CopyOutcome.copied patch6 := by
      simpa using frame6_patch
    have hsel : ([2] : List Int).contains 2 = true := by decide
    simp only [Track, MarkersInImage, List.filter, decide_True, trackLoop, trackMarker, hsel,
      Bool.not_true, Bool.false_eq_true, if_false, truncToInt_five_halves_sub_one,
      truncToInt_two_sub_one, shiftTracker]
    norm_num [hc, Insert]
  exact ⟨heval,
    ((Track_start_position_near_patch_centre 1 (by decide)).2.2 shiftTracker
      [{ image := 0, track := 2, x := 5 / 2, y := 2 }] [2] 0 1 frame6 frame6 _ heval).1⟩

end Libmv
